import Mathlib

/-!
# Directory scanner and tree renderer (`src/backend/filesystem.cpp`)

A shallow embedding of `FileSystemScanner`: the recursive scan
(`scan_directory`, `scan_recursive`), the size aggregation
(`calculate_directory_size`), the exclusion test (`should_exclude`) and the
line-drawing renderer (`generate_tree_text`).

Modelling conventions.

* The filesystem is a finite tree (`Node`) of regular files and directories;
  every access succeeds, so the `catch` blocks of the source are never entered.
  The order of a directory's `children` list is the order in which
  `fs::directory_iterator` happens to supply the entries.
* A `fs::path` is the list of its components below the scan root; the base
  name (`path.filename()`) is the last component.
* `std::string` names are `String`s. `std::string` comparison is byte-wise on
  UTF-8, which coincides with the code-point order of `String`.
* `uintmax_t` sizes are natural numbers; the one place where the source does arithmetic on
  them, the running total of `calculate_directory_size`, wraps modulo `2 ^ 64` as the source
  does. `int` depths are integers, without wrap-around.
* `std::regex` is a library outside the repository. It enters as a parameter
  `RegexEngine`: a pattern either fails to compile (`regex_error`) or yields
  the full-match predicate of `regex_match` under `regex::icase`.
-/

namespace FileTree

/-- A filesystem node: a regular file with its size, or a directory with its listing. -/
inductive Node where
  | file (name : String) (size : Nat)
  | dir (name : String) (children : List Node)
  deriving Repr

/-- Record `FileInfo` of `filesystem.hpp` (`last_modified` is informational and left out). -/
structure FileInfo where
  name : String
  path : List String
  is_directory : Bool
  size : Nat
  depth : Int
  deriving DecidableEq, Repr

/-- Record `FileTreeOptions` of `filesystem.hpp`, with its default member initialisers. -/
structure FileTreeOptions where
  show_size : Bool := false
  human_readable : Bool := true
  max_depth : Int := -1
  exclude_patterns : List String := []
  deriving DecidableEq, Repr

/-- The regular-expression library: `none` when constructing `regex(pattern, icase)` throws
`regex_error`, otherwise the predicate `regex_match(·, re)` (whole-string match), which is
taken not to throw. -/
abbrev RegexEngine := String → Option (String → Bool)

/-- Base name of a directory entry (`entry.path().filename()`). -/
def Node.name : Node → String
  | .file n _ => n
  | .dir n _ => n

/-- Test `entry.is_directory()`. -/
def Node.is_directory : Node → Bool
  | .file _ _ => false
  | .dir _ _ => true

/-- Test `entry.is_regular_file()`. -/
def Node.is_regular_file : Node → Bool
  | .file _ _ => true
  | .dir _ _ => false

/-- Value `entry.file_size()` of a regular file. -/
def Node.file_size : Node → Nat
  | .file _ s => s
  | .dir _ _ => 0

/-- Listing of a directory (`fs::directory_iterator`); a file has none. -/
def Node.children : Node → List Node
  | .file _ _ => []
  | .dir _ cs => cs

/-- Test `filename.find(pattern) != string::npos`: `pat` occurs in `s` as a contiguous run. -/
def find_substring : List Char → List Char → Bool
  | [], pat => pat.isEmpty
  | c :: s, pat => pat.isPrefixOf (c :: s) || find_substring s pat

/-- Body of the `for (pattern : patterns)` loop of `should_exclude`. -/
def should_exclude_loop (rx : RegexEngine) (filename : String) : List String → Bool
  | [] => false
  | pattern :: rest =>
    match rx pattern with
    | some re => if re filename then true else should_exclude_loop rx filename rest
    | none =>
      if find_substring filename.data pattern.data then true
      else should_exclude_loop rx filename rest

/-- Function `FileSystemScanner::should_exclude`, on the base name of the path. -/
def should_exclude (rx : RegexEngine) (filename : String) (patterns : List String) : Bool :=
  if patterns.isEmpty then false
  else should_exclude_loop rx filename patterns

mutual
/-- All entries strictly below a node, parents before their contents. -/
def Node.descendants : Node → List Node
  | .file _ _ => []
  | .dir _ cs => recursive_directory_iterator cs
termination_by structural n => n
/-- All entries strictly below a directory listing, parents before their contents
(`fs::recursive_directory_iterator`). -/
def recursive_directory_iterator : List Node → List Node
  | [] => []
  | entry :: rest => entry :: (entry.descendants ++ recursive_directory_iterator rest)
termination_by structural listing => listing
end

/-- Function `FileSystemScanner::calculate_directory_size`, on the listing of the directory.
The accumulator `total_size` is a `uintmax_t`, so every `+=` wraps modulo `2 ^ 64`. -/
def calculate_directory_size (listing : List Node) : Nat :=
  (recursive_directory_iterator listing).foldl
    (fun total_size entry =>
      if entry.is_regular_file then (total_size + entry.file_size) % 2 ^ 64
      else total_size) 0

/-- The comparison lambda handed to `std::sort`: directories first, then by file name. -/
def entry_less (a b : Node) : Bool :=
  if a.is_directory != b.is_directory then
    a.is_directory && !b.is_directory
  else
    decide (a.name < b.name)

/-- Insert `a` into a list ordered by `entry_less`. -/
def sort_insert (a : Node) : List Node → List Node
  | [] => [a]
  | b :: l => if entry_less b a then b :: sort_insert a l else a :: b :: l

/-- The call `std::sort(entries.begin(), entries.end(), cmp)`, as an insertion sort. Where no two
entries compare equivalent (names within one directory are distinct) the sorted sequence is
unique, so the choice of algorithm is immaterial. -/
def sort_entries : List Node → List Node
  | [] => []
  | a :: l => sort_insert a (sort_entries l)

/-- The entries of a listing that survive `should_exclude`, in sorted order. -/
def collect_entries (rx : RegexEngine) (options : FileTreeOptions) (listing : List Node) :
    List Node :=
  sort_entries (listing.filter fun entry => !should_exclude rx entry.name options.exclude_patterns)

/-- Function `FileSystemScanner::scan_recursive`: `path` is the directory being scanned,
`listing` its `fs::directory_iterator`, `depth` its depth (0 for the root). The result is the
sequence of entries appended to `result`. -/
def scan_recursive (rx : RegexEngine) (options : FileTreeOptions) (path : List String)
    (listing : List Node) (depth : Int) : List FileInfo :=
  if options.max_depth ≥ 0 ∧ depth > options.max_depth then
    []
  else
    (if depth > 0 then
      [{ name := path.getLastD "", path := path, is_directory := true,
         size := calculate_directory_size listing, depth := depth }]
    else []) ++
    (collect_entries rx options listing).attach.flatMap fun entry =>
      if entry.1.is_directory then
        scan_recursive rx options (path ++ [entry.1.name]) entry.1.children (depth + 1)
      else
        [{ name := entry.1.name, path := path ++ [entry.1.name], is_directory := false,
           depth := depth + 1, size := entry.1.file_size }]
termination_by sizeOf listing
decreasing_by
  have ins : ∀ (a x : Node) (l : List Node), x ∈ sort_insert a l → x = a ∨ x ∈ l := by
    intro a x l
    induction l with
    | nil => simp [sort_insert]
    | cons b l ih =>
      unfold sort_insert
      split
      · simp only [List.mem_cons]
        rintro (h | h)
        · exact Or.inr (Or.inl h)
        · rcases ih h with h | h
          · exact Or.inl h
          · exact Or.inr (Or.inr h)
      · simp
  have srt : ∀ (x : Node) (l : List Node), x ∈ sort_entries l → x ∈ l := by
    intro x l
    induction l with
    | nil => simp [sort_entries]
    | cons b l ih =>
      intro h
      rcases ins b x _ h with h | h
      · simp [h]
      · exact List.mem_cons_of_mem _ (ih h)
  have hmem : entry.1 ∈ listing := List.mem_of_mem_filter (srt _ _ entry.2)
  have hlt := List.sizeOf_lt_of_mem hmem
  revert hlt
  cases entry.1 with
  | file n s => simp [Node.children]; omega
  | dir n cs => simp [Node.children]; omega

/-- Function `FileSystemScanner::scan_directory` on a root that passes `is_path_safe` and
exists; a root that is not a directory gives the empty result. -/
def scan_directory (rx : RegexEngine) (root : Node) (options : FileTreeOptions := {}) :
    List FileInfo :=
  match root with
  | .file _ _ => []
  | .dir _ listing => scan_recursive rx options [] listing 0

/-- The loop body of `scan_recursive` for one collected entry of the directory `path`. -/
def scan_entry (rx : RegexEngine) (options : FileTreeOptions) (path : List String)
    (depth : Int) (entry : Node) : List FileInfo :=
  if entry.is_directory then
    scan_recursive rx options (path ++ [entry.name]) entry.children (depth + 1)
  else
    [{ name := entry.name, path := path ++ [entry.name], is_directory := false,
       depth := depth + 1, size := entry.file_size }]

/-- The `for (entry : entries)` loop of `scan_recursive`: everything it appends. -/
def scan_children (rx : RegexEngine) (options : FileTreeOptions) (path : List String)
    (listing : List Node) (depth : Int) : List FileInfo :=
  (collect_entries rx options listing).flatMap (scan_entry rx options path depth)

/-- The directory record pushed by `scan_recursive` before the loop. -/
def dir_info (path : List String) (listing : List Node) (depth : Int) : FileInfo :=
  { name := path.getLastD "", path := path, is_directory := true,
    size := calculate_directory_size listing, depth := depth }

/-- Conversion `static_cast<double>(size)`: the nearest value with a 53-bit significand,
ties to even. Values below `2^53` are exact. -/
def to_double (size : Nat) : Nat :=
  if size < 2 ^ 53 then size
  else
    let e := Nat.log2 size - 52
    let q := size / 2 ^ e
    let r := size % 2 ^ e
    let up := decide (2 * r > 2 ^ e) || (decide (2 * r = 2 ^ e) && decide (q % 2 = 1))
    (if up then q + 1 else q) * 2 ^ e

/-- The `while (formatted_size >= 1024.0 && unit_index < 4)` loop of `format_file_size`, with
`formatted_size = value / 1024 ^ unit_index` (division of a double by 1024 is exact). The guard
`unit_index < 4` bounds the loop by four rounds, which `rounds` counts down. -/
def scale_loop (value : Nat) : (rounds : Nat) → (unit_index : Nat) → Nat
  | 0, unit_index => unit_index
  | rounds + 1, unit_index =>
    if value ≥ 1024 * 1024 ^ unit_index ∧ unit_index < 4 then
      scale_loop value rounds (unit_index + 1)
    else unit_index

/-- Nearest integer to `num / den`, ties to even: the rounding of `fixed << setprecision(2)`. -/
def round_half_even (num den : Nat) : Nat :=
  let q := num / den
  let r := num % den
  if 2 * r < den then q
  else if 2 * r > den then q + 1
  else if q % 2 = 0 then q else q + 1

/-- The array `units` of `format_file_size`. -/
def units : List String := ["B", "KB", "MB", "GB", "TB"]

/-- Output of `fixed << setprecision(2)` for the value `hundredths / 100`. -/
def fixed2 (hundredths : Nat) : String :=
  toString (hundredths / 100) ++ "." ++ toString (hundredths % 100 / 10) ++
    toString (hundredths % 10)

/-- Function `FileSystemScanner::format_file_size`. -/
def format_file_size (size : Nat) (human_readable : Bool := true) : String :=
  if !human_readable then
    toString size ++ " B"
  else
    let value := to_double size
    let unit_index := scale_loop value 4 0
    fixed2 (round_half_even (100 * value) (1024 ^ unit_index)) ++ " " ++ units.getD unit_index ""

/-- What one iteration of the rendering loop writes to `tree_stream` before `endl`: the
indentation columns, the branch glyph, and the icon, name and optional size. -/
structure TreeLine where
  columns : List String
  branch : String
  label : String
  deriving DecidableEq, Repr

/-- The characters of one rendered line, `endl` included. -/
def TreeLine.text (l : TreeLine) : String :=
  String.join l.columns ++ l.branch ++ l.label ++ "\n"

/-- The local `is_last` of `generate_tree_text`, from the entry and the one after it. -/
def is_last_entry (file : FileInfo) (next : Option FileInfo) : Bool :=
  match next with
  | none => true
  | some next_file =>
    if next_file.depth > file.depth then false
    else if next_file.depth = file.depth then false
    else true

/-- The loop `for (int d = 1; d < file.depth; d++)`, started at `d` with `count` rounds to go;
`none` when it reads `is_last_at_depth` outside its bounds. -/
def draw_columns (is_last_at_depth : List Bool) : (d : Nat) → (count : Nat) → Option (List String)
  | _, 0 => some []
  | d, count + 1 =>
    match is_last_at_depth[d]? with
    | none => none
    | some flag =>
      (draw_columns is_last_at_depth (d + 1) count).map
        ((if flag then "    " else "│   ") :: ·)

/-- Icon and name written for an entry. -/
def entry_icon_name (file : FileInfo) : String :=
  if file.is_directory then "📁 " ++ file.name else "📄 " ++ file.name

/-- The main loop of `generate_tree_text` over the remaining entries, threading the table
`is_last_at_depth`; `none` when an index into the table is out of bounds (undefined behaviour
in the source). -/
def render_loop (options : FileTreeOptions) : List Bool → List FileInfo → Option (List TreeLine)
  | _, [] => some []
  | is_last_at_depth, file :: rest =>
    if file.depth = 0 then
      (render_loop options is_last_at_depth rest).map
        ({ columns := [], branch := "", label := entry_icon_name file } :: ·)
    else
      let is_last := is_last_entry file rest.head?
      if 0 ≤ file.depth ∧ file.depth < is_last_at_depth.length then
        let table := is_last_at_depth.set file.depth.toNat is_last
        match draw_columns table 1 (file.depth.toNat - 1) with
        | none => none
        | some columns =>
          (render_loop options table rest).map
            ({ columns := columns,
               branch := if is_last then "└── " else "├── ",
               label := entry_icon_name file ++
                 (if options.show_size then
                    " (" ++ format_file_size file.size options.human_readable ++ ")"
                  else "") } :: ·)
      else none

/-- The lines `generate_tree_text` writes for a non-empty entry list. -/
def tree_lines (files : List FileInfo) (options : FileTreeOptions := {}) :
    Option (List TreeLine) :=
  render_loop options (List.replicate 256 false) files

/-- Function `FileSystemScanner::generate_tree_text`; `none` stands for an out-of-bounds access
to the 256-slot table. -/
def generate_tree_text (files : List FileInfo) (options : FileTreeOptions := {}) :
    Option String :=
  if files.isEmpty then some "No files found."
  else (tree_lines files options).map fun lines => String.join (lines.map TreeLine.text)

/-! ## Specification vocabulary and proof notions -/

/-- Relation between consecutive entries of a pre-order listing. -/
def consecutive_ok (a b : FileInfo) : Prop :=
  (b.depth = a.depth + 1 ∧ a.is_directory = true) ∨ b.depth ≤ a.depth

/-- The pre-order invariant of the data model. -/
def pre_order_invariant (es : List FileInfo) : Prop :=
  (∀ e ∈ es.head?, e.depth = 1) ∧
    ∀ i (h : i + 1 < es.length), consecutive_ok es[i] es[i + 1]

/-- A run of entries that starts at depth `d`, stays at depth `d` or deeper, and is chained by
`consecutive_ok`. -/
def IsBlock (d : Int) (l : List FileInfo) : Prop :=
  (∀ e ∈ l.head?, e.depth = d) ∧ (∀ e ∈ l, d ≤ e.depth) ∧ l.Chain' consecutive_ok

/-- The entries of a result segment `l` that are children of a directory of depth `d` whose
contents begin `l`: those of depth `d + 1` before the first entry that is not deeper than `d`. -/
def children_entries (d : Int) (l : List FileInfo) : List FileInfo :=
  (l.takeWhile fun e => decide (d < e.depth)).filter fun e => decide (e.depth = d + 1)

/-- Order of two sibling entries: a directory before a file, and within one kind the names
strictly ascending. -/
def sibling_order (a b : FileInfo) : Prop :=
  (a.is_directory = true ∧ b.is_directory = false) ∨
    (a.is_directory = b.is_directory ∧ a.name < b.name)

/-- Names are distinct within the listing and within every directory below it. -/
def listing_distinct (listing : List Node) : Prop :=
  (listing.map Node.name).Nodup ∧
    ∀ n ∈ recursive_directory_iterator listing, (n.children.map Node.name).Nodup

/-- A directory tree in which no directory holds two entries of the same name. -/
def distinct_names (root : Node) : Prop :=
  listing_distinct root.children

/-- The entry that `scan_entry` emits for the child `c` itself, if any. -/
def child_entry (options : FileTreeOptions) (path : List String) (depth : Int) (c : Node) :
    Option FileInfo :=
  if c.is_directory then
    if options.max_depth ≥ 0 ∧ depth + 1 > options.max_depth then none
    else some (dir_info (path ++ [c.name]) c.children (depth + 1))
  else
    some { name := c.name, path := path ++ [c.name], is_directory := false,
           depth := depth + 1, size := c.file_size }

/-- Every directory entry of `out` has its children in sibling order, whatever follows `out`
as long as that does not start deeper than `b`. -/
def SiblingsOrdered (b : Int) (out : List FileInfo) : Prop :=
  ∀ rest : List FileInfo, (∀ r ∈ rest.head?, r.depth ≤ b) →
    ∀ pre e suf, out = pre ++ e :: suf → e.is_directory = true →
      (children_entries e.depth (suf ++ rest)).Pairwise sibling_order

/-- The nodes found by following the path `p` (a list of base names) down from a listing. -/
def nodes_at : List Node → List String → List Node
  | _, [] => []
  | listing, [c] => listing.filter fun n => n.name = c
  | listing, c :: d :: rest =>
    (listing.filter fun n => n.name = c).flatMap fun n => nodes_at n.children (d :: rest)

/-- Sum of the sizes of all regular files anywhere below a node. -/
def total_file_size (n : Node) : Nat :=
  ((n.descendants.filter Node.is_regular_file).map Node.file_size).sum

mutual
/-- Sum of the sizes of the regular files of a node's subtree that are not excluded, neither by
their own name nor by lying beneath an excluded directory (the node itself is not tested). -/
def Node.kept_size (rx : RegexEngine) (patterns : List String) : Node → Nat
  | .file _ s => s
  | .dir _ cs => listing_kept_size rx patterns cs
termination_by structural n => n
/-- Sum of `kept_size` over the entries of a listing that are not excluded. -/
def listing_kept_size (rx : RegexEngine) (patterns : List String) : List Node → Nat
  | [] => 0
  | c :: rest =>
    (if should_exclude rx c.name patterns then 0 else c.kept_size rx patterns) +
      listing_kept_size rx patterns rest
termination_by structural listing => listing
end

mutual
/-- Sum of the sizes of the regular files of a node's subtree that are excluded, by their own
name or by lying beneath an excluded directory (the node itself is not tested). -/
def Node.dropped_size (rx : RegexEngine) (patterns : List String) : Node → Nat
  | .file _ _ => 0
  | .dir _ cs => listing_dropped_size rx patterns cs
termination_by structural n => n
/-- Sum over a listing: an excluded entry contributes all its files, any other entry its
`dropped_size`. -/
def listing_dropped_size (rx : RegexEngine) (patterns : List String) : List Node → Nat
  | [] => 0
  | c :: rest =>
    (if should_exclude rx c.name patterns then
        (if c.is_regular_file then c.file_size else 0) + total_file_size c
      else c.dropped_size rx patterns) +
      listing_dropped_size rx patterns rest
termination_by structural listing => listing
end

/-- An entry `e` emitted while scanning the directory `path` with listing `listing` at depth
`depth` describes a node below that directory: its path extends `path` by non-excluded names
ending in its own, its depth counts the added names, and kind and size are the node's. -/
def DescribesNode (rx : RegexEngine) (options : FileTreeOptions) (path : List String)
    (listing : List Node) (depth : Int) (e : FileInfo) : Prop :=
  ∃ rel : List String, ∃ n ∈ nodes_at listing rel,
    e.path = path ++ rel ∧ rel.getLast? = some e.name ∧ e.depth = depth + rel.length ∧
    (∀ c ∈ rel, should_exclude rx c options.exclude_patterns = false) ∧
    n.name = e.name ∧ n.is_directory = e.is_directory ∧
    e.size = if e.is_directory then calculate_directory_size n.children else n.file_size

/-- Last-sibling test as the specification words it: scan forward over the entries that follow,
skip every entry strictly deeper than `file`, and see whether nothing remains or the first
entry found is strictly shallower. -/
def last_sibling (file : FileInfo) (rest : List FileInfo) : Bool :=
  match rest.dropWhile fun e => decide (file.depth < e.depth) with
  | [] => true
  | next :: _ => decide (next.depth < file.depth)

/-- Text of an indentation column for the flag read from `is_last_at_depth`. -/
def column_text (flag : Bool) : String :=
  if flag then "    " else "│   "

/-- Depth and `is_last` flag of every entry, in order. -/
def entry_flags : List FileInfo → List (Int × Bool)
  | [] => []
  | file :: rest => (file.depth, is_last_entry file rest.head?) :: entry_flags rest

/-- The flag most recently recorded for depth `d` in a history (latest first), `false` when
there is none: the content of `is_last_at_depth[d]`. -/
def flag_at : List (Int × Bool) → Int → Bool
  | [], _ => false
  | (k, flag) :: history, d => if k = d then flag else flag_at history d

/-- The number that a sequence of decimal digit characters denotes, most significant first. -/
def decimal_value (digits : List Char) : Nat :=
  digits.foldl (fun acc c => 10 * acc + (c.toNat - '0'.toNat)) 0

/-- The text `s` contains no newline character. -/
def no_newline (s : String) : Prop :=
  '\n' ∉ s.data

/-- The depth part of the pre-order invariant: a non-empty list starts at depth 1 and no entry
is more than one level deeper than its predecessor. -/
def depth_steps (files : List FileInfo) : Prop :=
  (∀ e ∈ files.head?, e.depth = 1) ∧
    ∀ i (h : i + 1 < files.length), files[i + 1].depth ≤ files[i].depth + 1

/-- The record that `scan_recursive`, scanning the directory `path` at depth `depth`, pushes for
a child that is not a directory. -/
def file_info (path : List String) (depth : Int) (entry : Node) : FileInfo :=
  { name := entry.name, path := path ++ [entry.name], is_directory := false,
    depth := depth + 1, size := entry.file_size }

mutual
/-- The nodes strictly below the node at `path`, each with its own path, parents before their
contents. -/
def Node.nodes_below : Node → List String → List (List String × Node)
  | .file _ _, _ => []
  | .dir _ cs, path => listing_below cs path
termination_by structural n => n
/-- The nodes of a listing of the directory `path` and everything below them, each with its
path. -/
def listing_below : List Node → List String → List (List String × Node)
  | [], _ => []
  | c :: rest, path =>
    (path ++ [c.name], c) :: (c.nodes_below (path ++ [c.name]) ++ listing_below rest path)
termination_by structural listing => listing
end

/-- The entry that describes the node `n` found at `path` below the root: its base name, its
kind, its distance from the root, and its size (for a directory, the sum computed by
`calculate_directory_size`). -/
def node_info (p : List String × Node) : FileInfo :=
  { name := p.2.name, path := p.1, is_directory := p.2.is_directory,
    size := if p.2.is_directory then calculate_directory_size p.2.children else p.2.file_size,
    depth := p.1.length }

/-! ## Sample data -/

/-- A regular-expression engine for patterns made of letters, digits and underscores only: such
a pattern is well-formed and matches exactly the names equal to it up to letter case, as in
`std::regex` with `regex::icase`. Any other pattern is outside its scope and counts as
malformed. -/
def literal_engine : RegexEngine := fun pattern =>
  if pattern.data.all (fun c => c.isAlphanum || c == '_') then
    some fun name => name.data.map Char.toLower == pattern.data.map Char.toLower
  else none

/-- A small tree: `root/{b.txt, A/{x.txt, node_modules/{big.js}}, a.txt}`. -/
def sample_tree : Node :=
  .dir "root" [.file "b.txt" 7,
    .dir "A" [.file "x.txt" 5, .dir "node_modules" [.file "big.js" 100]],
    .file "a.txt" 2]

/-- The entry for `A/x.txt` of `sample_tree`. -/
def sample_file_entry : FileInfo :=
  { name := "x.txt", path := ["A", "x.txt"], is_directory := false, size := 5, depth := 2 }

/-- The entry for the directory `A` of `sample_tree`. -/
def sample_dir_entry : FileInfo :=
  { name := "A", path := ["A"], is_directory := true, size := 105, depth := 1 }

/-- Options that exclude `node_modules`. -/
def sample_options : FileTreeOptions := { exclude_patterns := ["node_modules"] }

/-- The tree `root/{A/{x.txt}}`. -/
def chain_tree : Node :=
  .dir "root" [.dir "A" [.file "x.txt" 5]]

/-- The entries that `scan_directory` returns for `chain_tree`. -/
def chain_listing : List FileInfo :=
  [ { name := "A", path := ["A"], is_directory := true, size := 5, depth := 1 },
    sample_file_entry ]

/-- A tree whose directory `D` holds three files of `2 ^ 63 - 1` bytes each. -/
def huge_tree : Node :=
  .dir "root" [.dir "D" [.file "a" 9223372036854775807, .file "b" 9223372036854775807,
    .file "c" 9223372036854775807]]

/-- The entry that `scan_directory` returns for the directory `D` of `huge_tree`. -/
def huge_dir_entry : FileInfo :=
  { name := "D", path := ["D"], is_directory := true, size := 9223372036854775805, depth := 1 }

/-- The pre-order listing of `root/{A/{x.txt}, b.txt}`. -/
def sample_listing : List FileInfo :=
  [ sample_dir_entry, sample_file_entry,
    { name := "b.txt", path := ["b.txt"], is_directory := false, size := 7, depth := 1 } ]

/-! ## The scanner -/

theorem scan_recursive_unfold (rx : RegexEngine) (options : FileTreeOptions) (path : List String)
    (listing : List Node) (depth : Int) :
    scan_recursive rx options path listing depth =
      if options.max_depth ≥ 0 ∧ depth > options.max_depth then []
      else (if depth > 0 then [dir_info path listing depth] else []) ++
        scan_children rx options path listing depth := by
  rw [scan_recursive]
  split
  · rfl
  · congr 1
    simp only [scan_children, List.flatMap, List.attach, List.attachWith, List.map_pmap,
      List.pmap_eq_map]
    rfl

theorem mem_sort_insert {a x : Node} {l : List Node} :
    x ∈ sort_insert a l ↔ x = a ∨ x ∈ l := by
  induction l with
  | nil => simp [sort_insert]
  | cons b l ih =>
    unfold sort_insert
    split
    · simp [ih]; tauto
    · simp

theorem mem_sort_entries {x : Node} {l : List Node} : x ∈ sort_entries l ↔ x ∈ l := by
  induction l with
  | nil => simp [sort_entries]
  | cons b l ih => simp [sort_entries, mem_sort_insert, ih]

theorem mem_collect_entries {rx : RegexEngine} {options : FileTreeOptions} {listing : List Node}
    {x : Node} : x ∈ collect_entries rx options listing ↔
      x ∈ listing ∧ should_exclude rx x.name options.exclude_patterns = false := by
  simp [collect_entries, mem_sort_entries, List.mem_filter]

theorem sizeOf_children_lt {x : Node} {l : List Node} (h : x ∈ l) :
    sizeOf x.children < sizeOf l := by
  have h1 := List.sizeOf_lt_of_mem h
  cases x with
  | file n s => simp [Node.children] at *; omega
  | dir n cs => simp [Node.children] at *; omega

/-- Induction over directory listings: a property holds of a listing once it holds of the
listing of each of its entries. -/
theorem listing_induction {P : List Node → Prop}
    (step : ∀ listing, (∀ c ∈ listing, P c.children) → P listing) : ∀ listing, P listing := by
  have key : ∀ n listing, sizeOf listing < n → P listing := by
    intro n
    induction n with
    | zero => intro listing h; omega
    | succ n ih =>
      intro listing h
      apply step
      intro c hc
      have := sizeOf_children_lt hc
      exact ih _ (by omega)
  intro listing
  exact key _ listing (Nat.lt_succ_self _)

theorem isBlock_nil (d : Int) : IsBlock d [] := by
  simp [IsBlock]

theorem isBlock_append {d : Int} {l₁ l₂ : List FileInfo} (h₁ : IsBlock d l₁)
    (h₂ : IsBlock d l₂) : IsBlock d (l₁ ++ l₂) := by
  obtain ⟨a1, b1, c1⟩ := h₁
  obtain ⟨a2, b2, c2⟩ := h₂
  refine ⟨?_, ?_, ?_⟩
  · cases l₁ with
    | nil => simpa using a2
    | cons x l => simpa using a1
  · intro e he
    rcases List.mem_append.mp he with h | h
    · exact b1 e h
    · exact b2 e h
  · rw [List.chain'_append]
    refine ⟨c1, c2, ?_⟩
    intro x hx y hy
    right
    have hx' : x ∈ l₁ := List.mem_of_mem_getLast? hx
    rw [a2 y hy]
    exact b1 x hx'

theorem isBlock_flatMap {d : Int} {α : Type} (f : α → List FileInfo) (l : List α)
    (h : ∀ x ∈ l, IsBlock d (f x)) : IsBlock d (l.flatMap f) := by
  induction l with
  | nil => exact isBlock_nil d
  | cons x l ih =>
    rw [List.flatMap_cons]
    exact isBlock_append (h x (List.mem_cons_self _ _))
      (ih fun y hy => h y (List.mem_cons_of_mem _ hy))

theorem isBlock_cons_dir {d : Int} {a : FileInfo} {l : List FileInfo} (hd : a.depth = d)
    (hdir : a.is_directory = true) (h : IsBlock (d + 1) l) : IsBlock d (a :: l) := by
  obtain ⟨a1, b1, c1⟩ := h
  refine ⟨by simpa using hd, ?_, ?_⟩
  · intro e he
    rcases List.mem_cons.mp he with h | h
    · rw [h, hd]
    · have := b1 e h
      omega
  · rw [List.chain'_cons']
    refine ⟨?_, c1⟩
    intro y hy
    left
    exact ⟨by rw [a1 y hy, hd], hdir⟩

theorem scan_children_isBlock (rx : RegexEngine) (options : FileTreeOptions) :
    ∀ (listing : List Node) (path : List String) (depth : Int), 0 ≤ depth →
      IsBlock (depth + 1) (scan_children rx options path listing depth) := by
  intro listing
  induction listing using listing_induction with
  | step listing ih =>
    intro path depth hdepth
    unfold scan_children
    apply isBlock_flatMap
    intro c hc
    have hc' := (mem_collect_entries.mp hc).1
    unfold scan_entry
    split
    · rw [scan_recursive_unfold]
      split
      · exact isBlock_nil _
      · split
        · exact isBlock_cons_dir rfl rfl (ih c hc' _ _ (by omega))
        · omega
    · refine ⟨by simp, by simp, by simp⟩

theorem pre_order_of_isBlock {l : List FileInfo} (h : IsBlock 1 l) : pre_order_invariant l := by
  refine ⟨h.1, ?_⟩
  intro i hi
  have := List.chain'_iff_get.mp h.2.2 i (by omega)
  simpa using this

/-- C1: for every tree and every options value, the sequence returned by `scan_directory`
satisfies the pre-order invariant: a non-empty result starts at depth 1, and each entry is
followed either by an entry one level deeper (only after a directory) or by an entry that is
not deeper. -/
theorem scan_directory_pre_order (rx : RegexEngine) (root : Node) (options : FileTreeOptions) :
    pre_order_invariant (scan_directory rx root options) := by
  cases root with
  | file n s => exact pre_order_of_isBlock (isBlock_nil 1)
  | dir n listing =>
    apply pre_order_of_isBlock
    simp only [scan_directory]
    rw [scan_recursive_unfold]
    split
    · exact isBlock_nil 1
    · have := scan_children_isBlock rx options listing [] 0 (le_refl 0)
      simpa using this

theorem entry_less_asymm {a b : Node} (h : entry_less a b = true) : entry_less b a = false := by
  unfold entry_less at *
  cases ha : a.is_directory <;> cases hb : b.is_directory <;> simp_all
  all_goals exact le_of_lt h

theorem entry_le_trans {a b c : Node} (h₁ : entry_less b a = false)
    (h₂ : entry_less c b = false) : entry_less c a = false := by
  unfold entry_less at *
  cases ha : a.is_directory <;> cases hb : b.is_directory <;> cases hc : c.is_directory <;>
    simp_all
  all_goals exact le_trans h₁ h₂

theorem sort_insert_sorted (a : Node) (l : List Node)
    (h : l.Pairwise fun x y => entry_less y x = false) :
    (sort_insert a l).Pairwise fun x y => entry_less y x = false := by
  induction l with
  | nil => simp [sort_insert]
  | cons b l ih =>
    rw [List.pairwise_cons] at h
    unfold sort_insert
    split
    · rename_i hba
      rw [List.pairwise_cons]
      refine ⟨?_, ih h.2⟩
      intro y hy
      rcases mem_sort_insert.mp hy with rfl | hy
      · exact entry_less_asymm hba
      · exact h.1 y hy
    · rename_i hba
      have hba' : entry_less b a = false := by simpa using hba
      rw [List.pairwise_cons]
      refine ⟨?_, List.pairwise_cons.mpr h⟩
      intro y hy
      rcases List.mem_cons.mp hy with rfl | hy
      · exact hba'
      · exact entry_le_trans hba' (h.1 y hy)

theorem sort_entries_sorted (l : List Node) :
    (sort_entries l).Pairwise fun x y => entry_less y x = false := by
  induction l with
  | nil => simp [sort_entries]
  | cons a l ih => exact sort_insert_sorted a _ ih

theorem sort_insert_perm (a : Node) (l : List Node) : (sort_insert a l).Perm (a :: l) := by
  induction l with
  | nil => simp [sort_insert]
  | cons b l ih =>
    unfold sort_insert
    split
    · exact ((List.Perm.cons b ih).trans (List.Perm.swap a b l))
    · exact List.Perm.refl _

theorem sort_entries_perm (l : List Node) : (sort_entries l).Perm l := by
  induction l with
  | nil => simp [sort_entries]
  | cons a l ih => exact (sort_insert_perm a _).trans (List.Perm.cons a ih)

/-- With distinct names the collected entries are strictly ordered by the comparison of
`std::sort`. -/
theorem collect_entries_strict (rx : RegexEngine) (options : FileTreeOptions)
    (listing : List Node) (h : (listing.map Node.name).Nodup) :
    (collect_entries rx options listing).Pairwise fun x y =>
      (x.is_directory = true ∧ y.is_directory = false) ∨
        (x.is_directory = y.is_directory ∧ x.name < y.name) := by
  have hnd : ((collect_entries rx options listing).map Node.name).Nodup := by
    unfold collect_entries
    refine ((sort_entries_perm _).map Node.name).nodup_iff.mpr ?_
    exact h.sublist ((List.filter_sublist _).map Node.name)
  have hne : (collect_entries rx options listing).Pairwise fun x y => x.name ≠ y.name := by
    simpa [List.Nodup, List.pairwise_map] using hnd
  refine ((sort_entries_sorted _).and hne).imp ?_
  intro x y hxy
  obtain ⟨h1, h2⟩ := hxy
  unfold entry_less at h1
  cases hx : x.is_directory <;> cases hy : y.is_directory <;>
    simp only [hx, hy, bne_self_eq_false, Bool.false_eq_true, if_false, if_true,
      decide_eq_false_iff_not, not_lt, Bool.and_self, Bool.not_false, Bool.not_true,
      Bool.and_true, Bool.and_false, true_and, and_self, and_false, false_and, or_false,
      false_or, or_true, true_or, bne_iff_ne, ne_eq, not_false_eq_true, not_true_eq_false,
      reduceCtorEq] at h1 ⊢
  all_goals exact lt_of_le_of_ne h1 h2

theorem scan_recursive_isBlock (rx : RegexEngine) (options : FileTreeOptions)
    (listing : List Node) (path : List String) (depth : Int) (h : 0 < depth) :
    IsBlock depth (scan_recursive rx options path listing depth) := by
  rw [scan_recursive_unfold]
  split
  · exact isBlock_nil _
  · exact isBlock_cons_dir rfl rfl (scan_children_isBlock rx options listing path depth (by omega))

theorem scan_entry_isBlock (rx : RegexEngine) (options : FileTreeOptions) (path : List String)
    (depth : Int) (h : 0 ≤ depth) (c : Node) :
    IsBlock (depth + 1) (scan_entry rx options path depth c) := by
  unfold scan_entry
  split
  · exact scan_recursive_isBlock rx options _ _ _ (by omega)
  · refine ⟨by simp, by simp, by simp⟩

/-- Of the block emitted for a child, only its first entry lies at the child's depth. -/
theorem filter_scan_entry (rx : RegexEngine) (options : FileTreeOptions) (path : List String)
    (depth : Int) (h : 0 ≤ depth) (c : Node) :
    (scan_entry rx options path depth c).filter (fun e => decide (e.depth = depth + 1)) =
      (child_entry options path depth c).toList := by
  unfold scan_entry child_entry
  split
  · rw [scan_recursive_unfold]
    split
    · rfl
    · rw [if_pos (by omega)]
      have hb := (scan_children_isBlock rx options c.children (path ++ [c.name]) (depth + 1)
        (by omega)).2.1
      simp only [List.singleton_append, Option.toList]
      rw [List.filter_cons_of_pos (by simp [dir_info])]
      congr 1
      rw [List.filter_eq_nil_iff]
      intro e he
      have := hb e he
      simp only [decide_eq_true_eq]
      omega
  · simp

theorem children_entries_append (d : Int) (l rest : List FileInfo)
    (hl : ∀ e ∈ l, d < e.depth) (hrest : ∀ r ∈ rest.head?, r.depth ≤ d) :
    children_entries d (l ++ rest) = l.filter fun e => decide (e.depth = d + 1) := by
  unfold children_entries
  rw [List.takeWhile_append_of_pos (by simpa using hl)]
  have : rest.takeWhile (fun e => decide (d < e.depth)) = [] := by
    cases rest with
    | nil => rfl
    | cons r rest =>
      have := hrest r (by simp)
      rw [List.takeWhile_cons_of_neg (by simp; omega)]
  rw [this, List.append_nil]

theorem filter_flatMap_toList {α β : Type} (p : β → Bool) (f : α → List β) (g : α → Option β)
    (l : List α) (h : ∀ x ∈ l, (f x).filter p = (g x).toList) :
    (l.flatMap f).filter p = l.filterMap g := by
  induction l with
  | nil => rfl
  | cons x l ih =>
    rw [List.flatMap_cons, List.filter_append, h x (List.mem_cons_self _ _),
      ih fun y hy => h y (List.mem_cons_of_mem _ hy)]
    cases hg : g x <;> simp [List.filterMap_cons, hg]

/-- The children of a scanned directory, read off the result, are the entries that its loop
emits for the collected listing, in that order. -/
theorem children_entries_scan_children (rx : RegexEngine) (options : FileTreeOptions)
    (listing : List Node) (path : List String) (depth : Int) (h : 0 ≤ depth)
    (rest : List FileInfo) (hrest : ∀ r ∈ rest.head?, r.depth ≤ depth) :
    children_entries depth (scan_children rx options path listing depth ++ rest) =
      (collect_entries rx options listing).filterMap (child_entry options path depth) := by
  rw [children_entries_append _ _ _ _ hrest]
  · exact filter_flatMap_toList _ _ _ _ fun c _ => filter_scan_entry rx options path depth h c
  · intro e he
    have := (scan_children_isBlock rx options listing path depth h).2.1 e he
    omega

theorem child_entry_kind {options : FileTreeOptions} {path : List String} {depth : Int}
    {c : Node} {e : FileInfo} (h : e ∈ child_entry options path depth c) :
    e.is_directory = c.is_directory ∧ e.name = c.name := by
  unfold child_entry at h
  split at h
  · rename_i hc
    split at h
    · simp at h
    · simp only [Option.mem_def, Option.some.injEq] at h
      subst h
      simp [dir_info, hc]
  · rename_i hc
    simp only [Option.mem_def, Option.some.injEq] at h
    subst h
    simp [hc]

theorem children_sorted (rx : RegexEngine) (options : FileTreeOptions)
    (listing : List Node) (path : List String) (depth : Int)
    (hd : (listing.map Node.name).Nodup) :
    ((collect_entries rx options listing).filterMap
      (child_entry options path depth)).Pairwise sibling_order := by
  refine List.Pairwise.filterMap _ ?_ (collect_entries_strict rx options listing hd)
  intro a a' haa b hb b' hb'
  obtain ⟨k1, n1⟩ := child_entry_kind hb
  obtain ⟨k2, n2⟩ := child_entry_kind hb'
  unfold sibling_order
  rw [k1, k2, n1, n2]
  exact haa

theorem descendants_eq (c : Node) :
    c.descendants = recursive_directory_iterator c.children := by
  cases c with
  | file n s => simp [Node.descendants, Node.children, recursive_directory_iterator]
  | dir n cs => simp [Node.descendants, Node.children]

theorem mem_recursive_directory_iterator {c : Node} {listing : List Node} (h : c ∈ listing) :
    c ∈ recursive_directory_iterator listing ∧
      ∀ n ∈ recursive_directory_iterator c.children, n ∈ recursive_directory_iterator listing := by
  induction listing with
  | nil => simp at h
  | cons x l ih =>
    simp only [recursive_directory_iterator, List.mem_cons, List.mem_append, descendants_eq]
    rcases List.mem_cons.mp h with rfl | h
    · exact ⟨Or.inl rfl, fun m hm => Or.inr (Or.inl hm)⟩
    · obtain ⟨h1, h2⟩ := ih h
      exact ⟨Or.inr (Or.inr h1), fun m hm => Or.inr (Or.inr (h2 m hm))⟩

theorem listing_distinct_children {c : Node} {listing : List Node} (h : c ∈ listing)
    (hd : listing_distinct listing) : listing_distinct c.children := by
  obtain ⟨h1, h2⟩ := mem_recursive_directory_iterator h
  exact ⟨hd.2 c h1, fun n hn => hd.2 n (h2 n hn)⟩

theorem siblingsOrdered_nil (b : Int) : SiblingsOrdered b [] := by
  intro rest _ pre e suf h
  simp at h

theorem siblingsOrdered_append {b : Int} {l₁ l₂ : List FileInfo} (h₁ : SiblingsOrdered b l₁)
    (h₂ : SiblingsOrdered b l₂) (hhead : ∀ y ∈ l₂.head?, y.depth ≤ b) :
    SiblingsOrdered b (l₁ ++ l₂) := by
  intro rest hrest pre e suf hdec hdir
  rcases List.append_eq_append_iff.mp hdec with ⟨a', hpre, hl2⟩ | ⟨c', hl1, hc⟩
  · exact h₂ rest hrest a' e suf hl2 hdir
  · cases c' with
    | nil =>
      simp only [List.nil_append] at hc
      exact h₂ rest hrest [] e suf (by simpa using hc.symm) hdir
    | cons x c'' =>
      simp only [List.cons_append, List.cons.injEq] at hc
      obtain ⟨rfl, rfl⟩ := hc
      have := h₁ (l₂ ++ rest) (by
        cases l₂ with
        | nil => simpa using hrest
        | cons y l => simpa using hhead) pre e c'' hl1 hdir
      simpa using this

theorem siblingsOrdered_flatMap {b : Int} {α : Type} (f : α → List FileInfo) (l : List α)
    (h : ∀ x ∈ l, SiblingsOrdered b (f x) ∧ IsBlock b (f x)) :
    SiblingsOrdered b (l.flatMap f) ∧ IsBlock b (l.flatMap f) := by
  induction l with
  | nil => exact ⟨siblingsOrdered_nil b, isBlock_nil b⟩
  | cons x l ih =>
    rw [List.flatMap_cons]
    obtain ⟨i1, i2⟩ := ih fun y hy => h y (List.mem_cons_of_mem _ hy)
    obtain ⟨x1, x2⟩ := h x (List.mem_cons_self _ _)
    refine ⟨siblingsOrdered_append x1 i1 ?_, isBlock_append x2 i2⟩
    intro y hy
    exact le_of_eq (i2.1 y hy)

theorem scan_children_siblingsOrdered (rx : RegexEngine) (options : FileTreeOptions) :
    ∀ (listing : List Node), listing_distinct listing →
      ∀ (path : List String) (depth : Int), 0 ≤ depth →
        SiblingsOrdered (depth + 1) (scan_children rx options path listing depth) := by
  intro listing
  induction listing using listing_induction with
  | step listing ih =>
    intro hdist path depth hdepth
    unfold scan_children
    refine (siblingsOrdered_flatMap _ _ ?_).1
    intro c hc
    refine ⟨?_, scan_entry_isBlock rx options path depth hdepth c⟩
    have hc' := (mem_collect_entries.mp hc).1
    have hcd := listing_distinct_children hc' hdist
    unfold scan_entry
    split
    · rw [scan_recursive_unfold]
      split
      · exact siblingsOrdered_nil _
      · rw [if_pos (by omega)]
        intro rest hrest pre e suf hdec hdir
        cases pre with
        | nil =>
          simp only [List.singleton_append, List.nil_append, List.cons.injEq] at hdec
          obtain ⟨rfl, rfl⟩ := hdec
          have hdp : (dir_info (path ++ [c.name]) c.children (depth + 1)).depth = depth + 1 := rfl
          rw [hdp, children_entries_scan_children rx options _ _ _ (by omega) rest hrest]
          exact children_sorted rx options _ _ _ hcd.1
        | cons x pre' =>
          simp only [List.singleton_append, List.cons_append, List.cons.injEq] at hdec
          obtain ⟨rfl, hbody⟩ := hdec
          refine ih c hc' hcd (path ++ [c.name]) (depth + 1) (by omega) rest ?_ pre' e suf
            hbody hdir
          intro r hr
          have := hrest r hr
          omega
    · intro rest hrest pre e suf hdec hdir
      cases pre with
      | nil =>
        simp only [List.nil_append, List.cons.injEq] at hdec
        rw [← hdec.1] at hdir
        simp at hdir
      | cons x pre' => simp at hdec

theorem scan_directory_eq_children (rx : RegexEngine) (n : String) (listing : List Node)
    (options : FileTreeOptions) :
    scan_directory rx (.dir n listing) options = scan_children rx options [] listing 0 := by
  simp only [scan_directory]
  rw [scan_recursive_unfold, if_neg (by omega), if_neg (by omega), List.nil_append]

/-- C2: in a tree whose directories hold no two entries of one name, the entries emitted for
the children of one directory (the root, or any directory entry of the result) come
directories first, and within the directories and within the files by strictly ascending
name, whatever the order of the listing; a root holding `b.txt`, `A/` and `a.txt` yields its
children in the order `A`, `a.txt`, `b.txt`. -/
theorem scan_directory_sibling_order (rx : RegexEngine) (root : Node)
    (options : FileTreeOptions) (hnames : distinct_names root) :
    (children_entries 0 (scan_directory rx root options)).Pairwise sibling_order ∧
    (∀ i (h : i < (scan_directory rx root options).length),
      (scan_directory rx root options)[i].is_directory = true →
        (children_entries (scan_directory rx root options)[i].depth
          ((scan_directory rx root options).drop (i + 1))).Pairwise sibling_order) ∧
    (∀ (r : String) (s₁ s₂ : Nat) (cs : List Node),
      (children_entries 0 (scan_directory rx
        (.dir r [.file "b.txt" s₁, .dir "A" cs, .file "a.txt" s₂]) { })).map (·.name) =
        ["A", "a.txt", "b.txt"]) := by
  refine ⟨?_, ?_, ?_⟩
  · cases root with
    | file n s => simp [scan_directory, children_entries]
    | dir n listing =>
      rw [scan_directory_eq_children]
      have := children_entries_scan_children rx options listing [] 0 (le_refl 0) []
        (by simp)
      rw [List.append_nil] at this
      rw [this]
      exact children_sorted rx options _ _ _ hnames.1
  · cases root with
    | file n s => intro i h; simp [scan_directory] at h
    | dir n listing =>
      rw [scan_directory_eq_children]
      intro i h hdir
      have key := scan_children_siblingsOrdered rx options listing hnames [] 0 (le_refl 0) []
        (by simp) ((scan_children rx options [] listing 0).take i)
        ((scan_children rx options [] listing 0)[i])
        ((scan_children rx options [] listing 0).drop (i + 1))
        (by simp) hdir
      simpa using key
  · intro r s₁ s₂ cs
    rw [scan_directory_eq_children]
    have := children_entries_scan_children rx { } [.file "b.txt" s₁, .dir "A" cs, .file "a.txt" s₂]
      [] 0 (le_refl 0) [] (by simp)
    rw [List.append_nil] at this
    rw [this]
    simp +decide [collect_entries, should_exclude, sort_entries, sort_insert, entry_less,
      Node.is_directory, Node.name, child_entry, dir_info]

theorem sample_tree_distinct : distinct_names sample_tree := by
  unfold distinct_names listing_distinct
  decide

theorem scan_directory_sibling_order_witness :
    distinct_names sample_tree ∧
    (children_entries 0 (scan_directory literal_engine sample_tree sample_options)).Pairwise
      sibling_order :=
  ⟨sample_tree_distinct,
    (scan_directory_sibling_order literal_engine sample_tree sample_options
      sample_tree_distinct).1⟩

/-- C3 (the code at the failing inputs): with `max_depth = 0` the scan of a root that has
children returns the root's files at depth 1, and with `max_depth = 1` it returns the file
`A/x.txt` at depth 2 (while the directory `A/node_modules` of the same depth is left out). -/
theorem scan_max_depth_emits_deeper_files :
    scan_directory literal_engine sample_tree { max_depth := 0 } =
      [ { name := "a.txt", path := ["a.txt"], is_directory := false, size := 2, depth := 1 },
        { name := "b.txt", path := ["b.txt"], is_directory := false, size := 7, depth := 1 } ] ∧
    scan_directory literal_engine sample_tree { max_depth := 1 } =
      [ { name := "A", path := ["A"], is_directory := true, size := 105, depth := 1 },
        { name := "x.txt", path := ["A", "x.txt"], is_directory := false, size := 5, depth := 2 },
        { name := "a.txt", path := ["a.txt"], is_directory := false, size := 2, depth := 1 },
        { name := "b.txt", path := ["b.txt"], is_directory := false, size := 7, depth := 1 } ] := by
  unfold sample_tree
  constructor <;>
  · rw [scan_directory_eq_children]
    simp +decide [scan_children, scan_entry, collect_entries, should_exclude, sort_entries,
      sort_insert, entry_less, Node.is_directory, Node.name, Node.children, Node.file_size,
      scan_recursive_unfold, dir_info, calculate_directory_size, recursive_directory_iterator,
      Node.descendants, Node.is_regular_file]

theorem mem_nodes_at_single {listing : List Node} {c : String} {n : Node} :
    n ∈ nodes_at listing [c] ↔ n ∈ listing ∧ n.name = c := by
  simp [nodes_at]

theorem mem_nodes_at_cons {listing : List Node} {c : String} {rel : List String} {n : Node}
    (hrel : rel ≠ []) :
    n ∈ nodes_at listing (c :: rel) ↔
      ∃ m ∈ listing, m.name = c ∧ n ∈ nodes_at m.children rel := by
  cases rel with
  | nil => exact absurd rfl hrel
  | cons d rest =>
    simp only [nodes_at, List.mem_flatMap, List.mem_filter, decide_eq_true_eq]
    constructor
    · rintro ⟨m, ⟨h1, h2⟩, h3⟩
      exact ⟨m, h1, h2, h3⟩
    · rintro ⟨m, h1, h2, h3⟩
      exact ⟨m, ⟨h1, h2⟩, h3⟩

theorem nodes_at_ne_nil {listing : List Node} {rel : List String} {n : Node}
    (h : n ∈ nodes_at listing rel) : rel ≠ [] := by
  rintro rfl
  simp [nodes_at] at h

/-- Every entry the loop of `scan_recursive` emits describes a node below the directory. -/
theorem scan_children_describes (rx : RegexEngine) (options : FileTreeOptions) :
    ∀ (listing : List Node) (path : List String) (depth : Int), 0 ≤ depth →
      ∀ e ∈ scan_children rx options path listing depth,
        DescribesNode rx options path listing depth e := by
  intro listing
  induction listing using listing_induction with
  | step listing ih =>
    intro path depth hdepth e he
    unfold scan_children at he
    obtain ⟨c, hc, hec⟩ := List.mem_flatMap.mp he
    obtain ⟨hcl, hcx⟩ := mem_collect_entries.mp hc
    unfold scan_entry at hec
    split at hec
    · rename_i hdir
      rw [scan_recursive_unfold] at hec
      split at hec
      · simp at hec
      · rw [if_pos (by omega)] at hec
        rcases List.mem_append.mp hec with h | h
        · simp only [List.mem_singleton] at h
          subst h
          refine ⟨[c.name], c, mem_nodes_at_single.mpr ⟨hcl, rfl⟩, rfl, ?_, ?_, ?_, ?_, ?_, ?_⟩
          · simp [dir_info]
          · simp [dir_info]
          · simpa using hcx
          · simp [dir_info]
          · simp [dir_info, hdir]
          · simp [dir_info]
        · obtain ⟨rel, n, hn, h1, h2, h3, h4, h5, h6, h7⟩ :=
            ih c hcl (path ++ [c.name]) (depth + 1) (by omega) e h
          have hne := nodes_at_ne_nil hn
          refine ⟨c.name :: rel, n, (mem_nodes_at_cons hne).mpr ⟨c, hcl, rfl, hn⟩, ?_, ?_, ?_, ?_,
            h5, h6, h7⟩
          · simpa using h1
          · cases rel with
            | nil => exact absurd rfl hne
            | cons d r => simpa [List.getLast?_cons_cons] using h2
          · rw [h3]; simp; omega
          · intro x hx
            rcases List.mem_cons.mp hx with rfl | hx
            · exact hcx
            · exact h4 x hx
    · rename_i hdir
      simp only [List.mem_singleton] at hec
      subst hec
      refine ⟨[c.name], c, mem_nodes_at_single.mpr ⟨hcl, rfl⟩, rfl, rfl, ?_, ?_, rfl, ?_, ?_⟩
      · simp
      · simpa using hcx
      · simpa using hdir
      · simp

theorem scan_directory_describes (rx : RegexEngine) (root : Node) (options : FileTreeOptions)
    (e : FileInfo) (he : e ∈ scan_directory rx root options) :
    DescribesNode rx options [] root.children 0 e := by
  cases root with
  | file n s => simp [scan_directory] at he
  | dir n listing =>
    rw [scan_directory_eq_children] at he
    exact scan_children_describes rx options listing [] 0 (le_refl 0) e he

theorem scan_sample_excluding :
    scan_directory literal_engine sample_tree sample_options =
      [ sample_dir_entry, sample_file_entry,
        { name := "a.txt", path := ["a.txt"], is_directory := false, size := 2, depth := 1 },
        { name := "b.txt", path := ["b.txt"], is_directory := false, size := 7, depth := 1 } ] := by
  unfold sample_tree sample_options sample_dir_entry sample_file_entry
  rw [scan_directory_eq_children]
  simp +decide [scan_children, scan_entry, collect_entries, should_exclude, should_exclude_loop,
    literal_engine, sort_entries,
    sort_insert, entry_less, Node.is_directory, Node.name, Node.children, Node.file_size,
    scan_recursive_unfold, dir_info, calculate_directory_size, recursive_directory_iterator,
    Node.descendants, Node.is_regular_file]

theorem sample_file_entry_mem :
    sample_file_entry ∈ scan_directory literal_engine sample_tree sample_options := by
  rw [scan_sample_excluding]; simp

theorem sample_dir_entry_mem :
    sample_dir_entry ∈ scan_directory literal_engine sample_tree sample_options := by
  rw [scan_sample_excluding]; simp

/-- C4: no entry returned by `scan_directory` has an excluded base name, and none lies beneath
an excluded directory: every component of its path below the root, the last of which is its
own name, passes `should_exclude`, and the path leads to a node of the tree with the entry's
name and kind. -/
theorem scan_directory_honours_exclusion (rx : RegexEngine) (root : Node)
    (options : FileTreeOptions) (e : FileInfo) (he : e ∈ scan_directory rx root options) :
    should_exclude rx e.name options.exclude_patterns = false ∧
    (∀ c ∈ e.path, should_exclude rx c options.exclude_patterns = false) ∧
    e.path.getLast? = some e.name ∧
    ∃ n ∈ nodes_at root.children e.path, n.name = e.name ∧ n.is_directory = e.is_directory := by
  obtain ⟨rel, n, hn, h1, h2, h3, h4, h5, h6, h7⟩ := scan_directory_describes rx root options e he
  simp only [List.nil_append] at h1
  subst h1
  refine ⟨h4 _ (List.mem_of_mem_getLast? h2), h4, h2, n, hn, h5, h6⟩

theorem scan_directory_honours_exclusion_witness :
    sample_file_entry ∈ scan_directory literal_engine sample_tree sample_options ∧
    (∀ c ∈ sample_file_entry.path,
      should_exclude literal_engine c sample_options.exclude_patterns = false) :=
  ⟨sample_file_entry_mem, (scan_directory_honours_exclusion literal_engine sample_tree
    sample_options sample_file_entry sample_file_entry_mem).2.1⟩

/-! ## Exclusion patterns -/

theorem find_substring_iff (s pat : List Char) : find_substring s pat = true ↔ pat <:+: s := by
  induction s with
  | nil => simp [find_substring, List.infix_nil, List.isEmpty_iff]
  | cons c s ih =>
    rw [find_substring, Bool.or_eq_true, ih, List.infix_cons_iff, List.isPrefixOf_iff_prefix]

theorem should_exclude_loop_iff (rx : RegexEngine) (filename : String) (patterns : List String) :
    should_exclude_loop rx filename patterns = true ↔
      ∃ p ∈ patterns, (∃ re, rx p = some re ∧ re filename = true) ∨
        (rx p = none ∧ p.data <:+: filename.data) := by
  induction patterns with
  | nil => simp [should_exclude_loop]
  | cons p rest ih =>
    rw [should_exclude_loop]
    simp only [List.mem_cons, exists_eq_or_imp]
    cases hp : rx p with
    | none =>
      simp only [reduceCtorEq, false_and, exists_false, true_and, false_or]
      by_cases hf : find_substring filename.data p.data = true
      · simp [hf, (find_substring_iff _ _).mp hf]
      · have hn : ¬ p.data <:+: filename.data := fun h => hf ((find_substring_iff _ _).mpr h)
        simp only [hf, hn, Bool.false_eq_true, if_false, false_or]
        exact ih
    | some re =>
      simp only [Option.some.injEq, exists_eq_left', reduceCtorEq, false_and, or_false]
      by_cases hm : re filename = true
      · simp [hm]
      · simp only [hm, Bool.false_eq_true, if_false, false_or]
        exact ih

/-- C5: `should_exclude` returns true exactly when some pattern of the list either compiles
to a regular expression that matches the whole base name (case-insensitively, by the engine),
or fails to compile and occurs in the base name as a case-sensitive substring; on the empty
list it returns false. When `node_modules` compiles to an expression that matches
`Node_Modules` and not `my_node_modules_backup`, the former name is excluded and the latter is
not, as with the literal engine. -/
theorem should_exclude_iff (rx : RegexEngine) (filename : String) (patterns : List String) :
    (should_exclude rx filename patterns = true ↔
      ∃ p ∈ patterns, (∃ re, rx p = some re ∧ re filename = true) ∨
        (rx p = none ∧ p.data <:+: filename.data)) ∧
    should_exclude rx filename [] = false ∧
    (∀ re, rx "node_modules" = some re → re "Node_Modules" = true →
      re "my_node_modules_backup" = false →
        should_exclude rx "Node_Modules" ["node_modules"] = true ∧
        should_exclude rx "my_node_modules_backup" ["node_modules"] = false) ∧
    should_exclude literal_engine "Node_Modules" ["node_modules"] = true ∧
    should_exclude literal_engine "my_node_modules_backup" ["node_modules"] = false := by
  refine ⟨?_, by simp [should_exclude], ?_, by decide, by decide⟩
  · unfold should_exclude
    cases patterns with
    | nil => simp
    | cons p rest =>
      simp only [List.isEmpty_cons, Bool.false_eq_true, if_false]
      exact should_exclude_loop_iff rx filename (p :: rest)
  · intro re h1 h2 h3
    simp [should_exclude, should_exclude_loop, h1, h2, h3]

/-! ## Directory sizes -/

theorem foldl_size_eq (l : List Node) (acc : Nat) (hacc : acc < 2 ^ 64) :
    l.foldl (fun total_size entry =>
      if entry.is_regular_file then (total_size + entry.file_size) % 2 ^ 64
      else total_size) acc =
      (acc + ((l.filter Node.is_regular_file).map Node.file_size).sum) % 2 ^ 64 := by
  induction l generalizing acc with
  | nil =>
    simp only [List.foldl_nil, List.filter_nil, List.map_nil, List.sum_nil, Nat.add_zero]
    exact (Nat.mod_eq_of_lt hacc).symm
  | cons x l ih =>
    rw [List.foldl_cons]
    cases hx : x.is_regular_file
    · simp only [Bool.false_eq_true, if_false]
      rw [ih acc hacc]
      simp [List.filter_cons, hx]
    · simp only [if_true]
      rw [ih _ (Nat.mod_lt _ (by norm_num))]
      simp only [List.filter_cons, hx, if_true, List.map_cons, List.sum_cons]
      rw [Nat.mod_add_mod, Nat.add_assoc]

/-- The size computed by the code is the sum of the sizes of all regular files below, reduced
modulo `2 ^ 64`. -/
theorem calculate_directory_size_eq (n : Node) :
    calculate_directory_size n.children = total_file_size n % 2 ^ 64 := by
  unfold calculate_directory_size total_file_size
  rw [foldl_size_eq _ _ (by norm_num), descendants_eq, Nat.zero_add]

theorem nodes_at_unique : ∀ (p : List String) (listing : List Node),
    listing_distinct listing → ∀ n₁ ∈ nodes_at listing p, ∀ n₂ ∈ nodes_at listing p, n₁ = n₂ := by
  intro p
  induction p with
  | nil => intro listing _ n₁ h; simp [nodes_at] at h
  | cons c rel ih =>
    intro listing hd n₁ h₁ n₂ h₂
    by_cases hrel : rel = []
    · subst hrel
      obtain ⟨m1, e1⟩ := mem_nodes_at_single.mp h₁
      obtain ⟨m2, e2⟩ := mem_nodes_at_single.mp h₂
      exact List.inj_on_of_nodup_map hd.1 m1 m2 (e1.trans e2.symm)
    · obtain ⟨a, ha, hac, hn1⟩ := (mem_nodes_at_cons hrel).mp h₁
      obtain ⟨b, hb, hbc, hn2⟩ := (mem_nodes_at_cons hrel).mp h₂
      have hab : a = b := List.inj_on_of_nodup_map hd.1 ha hb (hac.trans hbc.symm)
      subst hab
      exact ih a.children (listing_distinct_children ha hd) n₁ hn1 n₂ hn2

theorem scan_huge_tree :
    scan_directory literal_engine huge_tree { } =
      [ huge_dir_entry,
        file_info ["D"] 1 (.file "a" 9223372036854775807),
        file_info ["D"] 1 (.file "b" 9223372036854775807),
        file_info ["D"] 1 (.file "c" 9223372036854775807) ] := by
  unfold huge_tree huge_dir_entry
  rw [scan_directory_eq_children]
  simp +decide [scan_children, scan_entry, collect_entries, should_exclude, sort_entries,
    sort_insert, entry_less, Node.is_directory, Node.name, Node.children, Node.file_size,
    scan_recursive_unfold, dir_info, file_info, calculate_directory_size,
    recursive_directory_iterator, Node.descendants, Node.is_regular_file]

/-- C6 (counterexample): the scan of `huge_tree` reports the directory `D`, whose three files
of `2 ^ 63 - 1` bytes sum to 27670116110564327421 bytes, with size 9223372036854775805: the
`uintmax_t` total has wrapped. -/
theorem directory_size_wraps :
    ∃ e ∈ scan_directory literal_engine huge_tree { },
      ∃ n ∈ nodes_at huge_tree.children e.path,
        e.is_directory = true ∧ e.size = 9223372036854775805 ∧
          total_file_size n = 27670116110564327421 ∧ e.size ≠ total_file_size n := by
  refine ⟨huge_dir_entry, by rw [scan_huge_tree]; simp,
    .dir "D" [.file "a" 9223372036854775807, .file "b" 9223372036854775807,
      .file "c" 9223372036854775807], ?_, rfl, rfl, ?_, ?_⟩
  · simp [nodes_at, huge_tree, huge_dir_entry, Node.children, Node.name]
  · decide
  · decide

/-- C6 (amended): in a tree with distinct names per directory, the size of each directory
entry returned by `scan_directory` is the sum of the sizes of all regular files anywhere below
the directory its path leads to, reduced modulo `2 ^ 64`, hence that sum itself whenever it is
below `2 ^ 64`; and every scan of the same tree under another `max_depth` that emits that
directory reports the same size. -/
theorem directory_size_is_wrapped_subtree_total (rx : RegexEngine) (root : Node)
    (options : FileTreeOptions) (hnames : distinct_names root) (e : FileInfo)
    (he : e ∈ scan_directory rx root options) (hdir : e.is_directory = true) :
    (∃ n ∈ nodes_at root.children e.path,
      n.is_directory = true ∧ n.name = e.name ∧ e.size = total_file_size n % 2 ^ 64 ∧
        (total_file_size n < 2 ^ 64 → e.size = total_file_size n)) ∧
    ∀ (m : Int), ∀ e' ∈ scan_directory rx root { options with max_depth := m },
      e'.is_directory = true → e'.path = e.path → e'.size = e.size := by
  obtain ⟨rel, n, hn, h1, _, _, _, h5, h6, h7⟩ := scan_directory_describes rx root options e he
  simp only [List.nil_append] at h1
  rw [hdir] at h6
  rw [if_pos hdir, calculate_directory_size_eq] at h7
  refine ⟨⟨n, h1 ▸ hn, h6, h5, h7, fun hlt => by rw [h7, Nat.mod_eq_of_lt hlt]⟩, ?_⟩
  intro m e' he' hdir' hpath
  obtain ⟨rel', n', hn', h1', _, _, _, _, _, h7'⟩ :=
    scan_directory_describes rx root _ e' he'
  simp only [List.nil_append] at h1'
  rw [if_pos hdir', calculate_directory_size_eq] at h7'
  have hnn : n' = n := by
    refine nodes_at_unique e.path root.children hnames n' ?_ n (h1 ▸ hn)
    rw [← hpath, h1']
    exact hn'
  rw [h7', h7, hnn]

theorem directory_size_is_wrapped_subtree_total_witness :
    distinct_names sample_tree ∧
    sample_dir_entry ∈ scan_directory literal_engine sample_tree sample_options ∧
    ∃ n ∈ nodes_at sample_tree.children sample_dir_entry.path,
      n.is_directory = true ∧ n.name = sample_dir_entry.name ∧
        sample_dir_entry.size = total_file_size n % 2 ^ 64 ∧
        (total_file_size n < 2 ^ 64 → sample_dir_entry.size = total_file_size n) :=
  ⟨sample_tree_distinct, sample_dir_entry_mem,
    (directory_size_is_wrapped_subtree_total literal_engine sample_tree sample_options
      sample_tree_distinct sample_dir_entry sample_dir_entry_mem rfl).1⟩

theorem total_eq_kept_add_dropped (rx : RegexEngine) (patterns : List String) :
    ∀ listing : List Node,
      (((recursive_directory_iterator listing).filter Node.is_regular_file).map
        Node.file_size).sum =
        listing_kept_size rx patterns listing + listing_dropped_size rx patterns listing := by
  intro listing
  induction listing using listing_induction with
  | step listing ih =>
    induction listing with
    | nil => simp [recursive_directory_iterator, listing_kept_size, listing_dropped_size]
    | cons c rest ihr =>
      have hrest := ihr fun x hx => ih x (List.mem_cons_of_mem _ hx)
      have hc := ih c (List.mem_cons_self _ _)
      cases c with
      | file n s =>
        simp only [recursive_directory_iterator, listing_kept_size, listing_dropped_size,
          List.filter_cons, List.filter_append, List.map_append, List.sum_append,
          Node.is_regular_file, Node.file_size, Node.kept_size, Node.dropped_size,
          total_file_size, Node.descendants, if_true, List.map_cons, List.sum_cons,
          List.filter_nil, List.map_nil, List.sum_nil, List.nil_append, hrest]
        split <;> omega
      | dir n cs =>
        simp only [Node.children] at hc
        simp only [recursive_directory_iterator, listing_kept_size, listing_dropped_size,
          List.filter_cons, List.filter_append, List.map_append, List.sum_append,
          Node.is_regular_file, Node.file_size, Node.kept_size, Node.dropped_size,
          total_file_size, Node.descendants, Bool.false_eq_true, if_false, hrest, hc]
        split <;> omega

theorem total_file_size_split (rx : RegexEngine) (patterns : List String) (n : Node)
    (hdir : n.is_directory = true) :
    total_file_size n = n.kept_size rx patterns + n.dropped_size rx patterns := by
  cases n with
  | file m s => simp [Node.is_directory] at hdir
  | dir m cs =>
    simp only [total_file_size, Node.descendants, Node.kept_size, Node.dropped_size]
    exact total_eq_kept_add_dropped rx patterns cs

/-- C7 (counterexample): scanning `sample_tree` with `node_modules` excluded returns the
directory `A` with size 105, although the files below `A` that are not excluded sum to 5:
the excluded `node_modules/big.js` (100 bytes) is counted. -/
theorem excluded_files_are_counted :
    ∃ e ∈ scan_directory literal_engine sample_tree sample_options,
      ∃ n ∈ nodes_at sample_tree.children e.path,
        e.is_directory = true ∧ e.size = 105 ∧
          n.kept_size literal_engine sample_options.exclude_patterns = 5 ∧
          e.size ≠ n.kept_size literal_engine sample_options.exclude_patterns := by
  refine ⟨sample_dir_entry, sample_dir_entry_mem,
    .dir "A" [.file "x.txt" 5, .dir "node_modules" [.file "big.js" 100]], ?_, rfl, rfl, ?_, ?_⟩
  · simp [nodes_at, sample_tree, sample_dir_entry, Node.children, Node.name]
  · decide
  · decide

/-- C7 (amended): exclusion does not enter the size of an emitted directory: the size is the
sum over the regular files below it that are not excluded plus the sum over those that are
excluded (by their own name or by lying beneath an excluded directory), reduced modulo
`2 ^ 64`, hence that sum itself whenever it is below `2 ^ 64`. -/
theorem directory_size_counts_excluded (rx : RegexEngine) (root : Node)
    (options : FileTreeOptions) (e : FileInfo) (he : e ∈ scan_directory rx root options)
    (hdir : e.is_directory = true) :
    ∃ n ∈ nodes_at root.children e.path, n.is_directory = true ∧ n.name = e.name ∧
      e.size = (n.kept_size rx options.exclude_patterns +
        n.dropped_size rx options.exclude_patterns) % 2 ^ 64 ∧
      (n.kept_size rx options.exclude_patterns +
          n.dropped_size rx options.exclude_patterns < 2 ^ 64 →
        e.size = n.kept_size rx options.exclude_patterns +
          n.dropped_size rx options.exclude_patterns) := by
  obtain ⟨rel, n, hn, h1, _, _, _, h5, h6, h7⟩ := scan_directory_describes rx root options e he
  simp only [List.nil_append] at h1
  rw [hdir] at h6
  rw [if_pos hdir, calculate_directory_size_eq,
    total_file_size_split rx options.exclude_patterns n h6] at h7
  exact ⟨n, h1 ▸ hn, h6, h5, h7, fun hlt => by rw [h7, Nat.mod_eq_of_lt hlt]⟩

theorem directory_size_counts_excluded_witness :
    sample_dir_entry ∈ scan_directory literal_engine sample_tree sample_options ∧
    sample_dir_entry.is_directory = true ∧
    ∃ n ∈ nodes_at sample_tree.children sample_dir_entry.path,
      n.is_directory = true ∧ n.name = sample_dir_entry.name ∧
      sample_dir_entry.size = (n.kept_size literal_engine sample_options.exclude_patterns +
        n.dropped_size literal_engine sample_options.exclude_patterns) % 2 ^ 64 :=
  ⟨sample_dir_entry_mem, rfl,
    (directory_size_counts_excluded literal_engine sample_tree sample_options sample_dir_entry
      sample_dir_entry_mem rfl).imp fun _ h => ⟨h.1, h.2.1, h.2.2.1, h.2.2.2.1⟩⟩

/-! ## The renderer -/

set_option maxRecDepth 100000 in
/-- C8: for the pre-order listing of `root/{A/{x.txt}, b.txt}` (whatever the paths and sizes
recorded in the entries) and default options, `generate_tree_text` returns exactly the three
newline-terminated lines `├── 📁 A`, `│   └── 📄 x.txt` and `└── 📄 b.txt`. -/
theorem generate_tree_text_two_level (p₁ p₂ p₃ : List String) (s₁ s₂ s₃ : Nat) :
    generate_tree_text
      [ { name := "A", path := p₁, is_directory := true, size := s₁, depth := 1 },
        { name := "x.txt", path := p₂, is_directory := false, size := s₂, depth := 2 },
        { name := "b.txt", path := p₃, is_directory := false, size := s₃, depth := 1 } ] { } =
      some "├── 📁 A\n│   └── 📄 x.txt\n└── 📄 b.txt\n" := by
  rfl

set_option maxRecDepth 100000 in
/-- C9 (the code at the failing input): the scan of `root/{A/{x.txt}}` satisfies the pre-order
invariant, and its directory `A` is the last of its siblings by the forward scan of the
specification, yet `generate_tree_text` draws `A` with `├── `. -/
theorem last_directory_drawn_as_not_last :
    scan_directory literal_engine chain_tree { } = chain_listing ∧
    pre_order_invariant chain_listing ∧
    last_sibling { name := "A", path := ["A"], is_directory := true, size := 5, depth := 1 }
      [sample_file_entry] = true ∧
    (tree_lines chain_listing { }).map (List.map TreeLine.branch) = some ["├── ", "└── "] ∧
    generate_tree_text chain_listing { } = some "├── 📁 A\n│   └── 📄 x.txt\n" := by
  refine ⟨?_, ⟨by simp [chain_listing], ?_⟩, by decide, by rfl, by rfl⟩
  · unfold chain_tree chain_listing sample_file_entry
    rw [scan_directory_eq_children]
    simp +decide [scan_children, scan_entry, collect_entries, should_exclude, sort_entries,
      sort_insert, Node.is_directory, Node.name, Node.children, Node.file_size,
      scan_recursive_unfold, dir_info, calculate_directory_size, recursive_directory_iterator,
      Node.descendants, Node.is_regular_file]
  · intro i h
    have hi : i = 0 := by simp [chain_listing] at h; omega
    subst hi
    exact Or.inl ⟨rfl, rfl⟩

theorem draw_columns_spec (tbl : List Bool) : ∀ (count d : Nat), d + count ≤ tbl.length →
    draw_columns tbl d count =
      some ((List.range count).map fun k => column_text (tbl[d + k]?.getD false)) := by
  intro count
  induction count with
  | zero => intro d _; rfl
  | succ n ih =>
    intro d h
    have hd : d < tbl.length := by omega
    rw [draw_columns, List.getElem?_eq_getElem hd]
    simp only [ih (d + 1) (by omega), Option.map_some', List.range_succ_eq_map, List.map_cons,
      List.map_map, Nat.add_zero, List.getElem?_eq_getElem hd, Option.getD_some, column_text]
    congr 2
    apply List.map_congr_left
    intro k _
    simp only [Function.comp, Nat.succ_eq_add_one]
    rw [show d + 1 + k = d + (k + 1) by omega]

/-- What the rendering loop writes, given that the table holds the flags of the `history`
already processed: a line per entry, whose branch glyph is the entry's `is_last` flag and
whose columns are the flags recorded latest for the depths above it. -/
theorem render_loop_spec (options : FileTreeOptions) :
    ∀ (files : List FileInfo) (history : List (Int × Bool)) (tbl : List Bool),
      tbl.length = 256 →
      (∀ d : Nat, d < 256 → tbl[d]? = some (flag_at history d)) →
      (∀ e ∈ files, 1 ≤ e.depth ∧ e.depth ≤ 255) →
      ∃ lines, render_loop options tbl files = some lines ∧ lines.length = files.length ∧
        ∀ i file, files[i]? = some file → ∃ line, lines[i]? = some line ∧
          line.branch = (if is_last_entry file files[i + 1]? then "└── " else "├── ") ∧
          line.columns = (List.range (file.depth.toNat - 1)).map fun (k : Nat) =>
            column_text
              (flag_at (((entry_flags files).take i).reverse ++ history) ((k : Int) + 1)) := by
  intro files
  induction files with
  | nil =>
    intro history tbl _ _ _
    exact ⟨[], rfl, rfl, fun i file h => by simp at h⟩
  | cons f rest ih =>
    intro history tbl hlen htbl hrange
    obtain ⟨hf1, hf2⟩ := hrange f (List.mem_cons_self _ _)
    have hset : ∀ d : Nat, d < 256 →
        (tbl.set f.depth.toNat (is_last_entry f rest.head?))[d]? =
          some (flag_at ((f.depth, is_last_entry f rest.head?) :: history) d) := by
      intro d hd
      by_cases hdk : f.depth.toNat = d
      · subst hdk
        rw [List.getElem?_set_self (by omega)]
        simp only [flag_at]
        rw [if_pos (by omega)]
      · rw [List.getElem?_set_ne hdk, htbl d hd]
        simp only [flag_at]
        rw [if_neg (by omega)]
    obtain ⟨lines, hrun, hlines, hspec⟩ :=
      ih ((f.depth, is_last_entry f rest.head?) :: history)
        (tbl.set f.depth.toNat (is_last_entry f rest.head?)) (by simpa using hlen) hset
        (fun e he => hrange e (List.mem_cons_of_mem _ he))
    have hcols := draw_columns_spec (tbl.set f.depth.toNat (is_last_entry f rest.head?))
      (f.depth.toNat - 1) 1 (by simp only [List.length_set]; omega)
    refine ⟨{ columns := (List.range (f.depth.toNat - 1)).map fun k => column_text
                ((tbl.set f.depth.toNat (is_last_entry f rest.head?))[1 + k]?.getD false),
              branch := if is_last_entry f rest.head? then "└── " else "├── ",
              label := entry_icon_name f ++
                (if options.show_size then
                  " (" ++ format_file_size f.size options.human_readable ++ ")"
                else "") } :: lines, ?_, ?_, ?_⟩
    · rw [render_loop, if_neg (by omega)]
      simp only []
      rw [if_pos ⟨by omega, by omega⟩, hcols]
      simp only [hrun, Option.map_some']
    · simp [hlines]
    · intro i file hfile
      cases i with
      | zero =>
        simp only [List.getElem?_cons_zero, Option.some.injEq] at hfile
        subst hfile
        refine ⟨_, List.getElem?_cons_zero, ?_, ?_⟩
        · simp only [zero_add, List.getElem?_cons_succ]
          rw [List.head?_eq_getElem?]
        · simp only [List.take_zero, List.reverse_nil, List.nil_append]
          apply List.map_congr_left
          intro k hk
          have hk' : k < f.depth.toNat - 1 := List.mem_range.mp hk
          rw [hset (1 + k) (by omega)]
          simp only [Option.getD_some, flag_at]
          rw [if_neg (by omega)]
          congr 2
          omega
      | succ i =>
        simp only [List.getElem?_cons_succ] at hfile
        obtain ⟨line, h1, h2, h3⟩ := hspec i file hfile
        refine ⟨line, by simpa using h1, ?_, ?_⟩
        · simpa using h2
        · rw [h3]
          simp [entry_flags]

theorem entry_flags_getElem : ∀ (files : List FileInfo) (j : Nat),
    (entry_flags files)[j]? =
      files[j]?.map fun f => (f.depth, is_last_entry f files[j + 1]?) := by
  intro files
  induction files with
  | nil => intro j; simp [entry_flags]
  | cons f rest ih =>
    intro j
    cases j with
    | zero => simp [entry_flags, List.head?_eq_getElem?]
    | succ j => simp [entry_flags, ih j]

theorem flag_at_cons (p : Int × Bool) (history : List (Int × Bool)) (d : Int) :
    flag_at (p :: history) d = if p.1 = d then p.2 else flag_at history d := by
  cases p
  rfl

/-- The flag found for depth `d` after `i` entries is that of the nearest earlier entry of
depth `d`, when there is one. -/
theorem flag_at_take (L : List (Int × Bool)) (d : Int) : ∀ i, i ≤ L.length →
    (∃ j q, j < i ∧ L[j]? = some q ∧ q.1 = d) →
    ∃ j p, j < i ∧ L[j]? = some p ∧ p.1 = d ∧
      (∀ j' q, j < j' → j' < i → L[j']? = some q → q.1 ≠ d) ∧
      flag_at ((L.take i).reverse) d = p.2 := by
  intro i
  induction i with
  | zero => rintro _ ⟨j, q, hj, _⟩; omega
  | succ i ih =>
    intro hi hex
    have hlt : i < L.length := by omega
    have htake : (L.take (i + 1)).reverse = L[i] :: (L.take i).reverse := by
      rw [List.take_succ, List.getElem?_eq_getElem hlt]
      simp
    rw [htake]
    by_cases hd : (L[i]).1 = d
    · refine ⟨i, L[i], by omega, List.getElem?_eq_getElem hlt, hd, ?_, ?_⟩
      · intro j' q h1 h2; omega
      · rw [flag_at_cons, if_pos hd]
    · have hex' : ∃ j q, j < i ∧ L[j]? = some q ∧ q.1 = d := by
        obtain ⟨j, q, hj, hq, hqd⟩ := hex
        refine ⟨j, q, ?_, hq, hqd⟩
        rcases Nat.lt_succ_iff_lt_or_eq.mp hj with h | h
        · exact h
        · subst h
          rw [List.getElem?_eq_getElem hlt, Option.some.injEq] at hq
          exact absurd (hq ▸ hqd) hd
      obtain ⟨j, p, hj, hp, hpd, hnear, hflag⟩ := ih (by omega) hex'
      refine ⟨j, p, by omega, hp, hpd, ?_, ?_⟩
      · intro j' q h1 h2 hq
        rcases Nat.lt_succ_iff_lt_or_eq.mp h2 with h | h
        · exact hnear j' q h1 h hq
        · subst h
          rw [List.getElem?_eq_getElem hlt, Option.some.injEq] at hq
          exact hq ▸ hd
      · rw [flag_at_cons, if_neg hd, hflag]

/-- In a pre-order listing every depth from 1 up to that of an entry occurs at or before it. -/
theorem exists_depth_before (files : List FileInfo) (hpre : pre_order_invariant files) :
    ∀ (i : Nat) (file : FileInfo), files[i]? = some file → ∀ d : Int, 1 ≤ d → d ≤ file.depth →
      ∃ (j : Nat) (anc : FileInfo), j ≤ i ∧ files[j]? = some anc ∧ anc.depth = d := by
  intro i
  induction i with
  | zero =>
    intro file hfile d h1 h2
    have h0 : file.depth = 1 := hpre.1 file (by rw [List.head?_eq_getElem?]; exact hfile)
    exact ⟨0, file, le_refl 0, hfile, by omega⟩
  | succ i ih =>
    intro file hfile d h1 h2
    have hlen : i + 1 < files.length := (List.getElem?_eq_some_iff.mp hfile).1
    have hcons := hpre.2 i hlen
    have hfe : files[i + 1] = file := (List.getElem?_eq_some_iff.mp hfile).2
    rw [hfe] at hcons
    by_cases hd : d = file.depth
    · exact ⟨i + 1, file, le_refl _, hfile, hd.symm⟩
    · have hle : d ≤ (files[i]).depth := by
        rcases hcons with ⟨h, _⟩ | h <;> omega
      obtain ⟨j, anc, hj, hanc, hancd⟩ :=
        ih files[i] (List.getElem?_eq_getElem (by omega)) d h1 hle
      exact ⟨j, anc, by omega, hanc, hancd⟩

theorem length_entry_flags (files : List FileInfo) :
    (entry_flags files).length = files.length := by
  induction files with
  | nil => rfl
  | cons f rest ih => simp [entry_flags, ih]

/-- C10: for every entry list that satisfies the pre-order invariant with depths between 1 and
255, `generate_tree_text` renders one line per entry; the line of an entry of depth `k` has
exactly `k - 1` columns before its branch glyph, and column `d` (for `1 ≤ d ≤ k - 1`) is
`│   ` when the nearest preceding entry of depth `d` was drawn with `├── ` and four spaces
when it was drawn with `└── `. -/
theorem tree_columns_follow_ancestors (options : FileTreeOptions) (files : List FileInfo)
    (hpre : pre_order_invariant files) (hdepth : ∀ e ∈ files, 1 ≤ e.depth ∧ e.depth ≤ 255) :
    ∃ lines, tree_lines files options = some lines ∧ lines.length = files.length ∧
      generate_tree_text files options =
        some (if files.isEmpty then "No files found."
          else String.join (lines.map TreeLine.text)) ∧
      ∀ (i : Nat) (file : FileInfo), files[i]? = some file →
        ∃ line, lines[i]? = some line ∧
          (line.columns.length : Int) = file.depth - 1 ∧
          (line.branch = "├── " ∨ line.branch = "└── ") ∧
          ∀ d : Nat, 1 ≤ d → (d : Int) < file.depth →
            ∃ (j : Nat) (anc : FileInfo) (aline : TreeLine),
              j < i ∧ files[j]? = some anc ∧ lines[j]? = some aline ∧ anc.depth = d ∧
              (∀ (j' : Nat) (f' : FileInfo), j < j' → j' < i → files[j']? = some f' →
                f'.depth ≠ d) ∧
              ((aline.branch = "├── " ∧ line.columns[d - 1]? = some "│   ") ∨
                (aline.branch = "└── " ∧ line.columns[d - 1]? = some "    ")) := by
  obtain ⟨lines, hrun, hlen, hspec⟩ := render_loop_spec options files []
    (List.replicate 256 false) (List.length_replicate _ _) (by
      intro d hd
      rw [List.getElem?_replicate_of_lt hd]
      rfl) hdepth
  refine ⟨lines, hrun, hlen, ?_, ?_⟩
  · unfold generate_tree_text
    split
    · rfl
    · rw [show tree_lines files options = some lines from hrun]; rfl
  intro i file hfile
  obtain ⟨line, hline, hbranch, hcols⟩ := hspec i file hfile
  have hfd := hdepth file (List.getElem?_mem hfile)
  have hi : i < files.length := (List.getElem?_eq_some_iff.mp hfile).1
  refine ⟨line, hline, ?_, ?_, ?_⟩
  · rw [hcols, List.length_map, List.length_range]
    omega
  · rw [hbranch]
    split
    · exact Or.inr rfl
    · exact Or.inl rfl
  · intro d hd1 hd2
    obtain ⟨j, anc, hj, hanc, hancd⟩ :=
      exists_depth_before files hpre i file hfile d (by omega) (by omega)
    have hji : j < i := by
      rcases Nat.lt_or_eq_of_le hj with h | h
      · exact h
      · subst h
        rw [hfile, Option.some.injEq] at hanc
        subst hanc
        omega
    obtain ⟨j₀, p, hj₀, hp, hpd, hnear, hflag⟩ :=
      flag_at_take (entry_flags files) d i (by rw [length_entry_flags]; omega)
        ⟨j, (anc.depth, is_last_entry anc files[j + 1]?), hji, by
          rw [entry_flags_getElem, hanc]; rfl, hancd⟩
    rw [entry_flags_getElem] at hp
    obtain ⟨anc₀, hanc₀, hp₀⟩ := Option.map_eq_some'.mp hp
    subst hp₀
    obtain ⟨aline, haline, habranch, _⟩ := hspec j₀ anc₀ hanc₀
    refine ⟨j₀, anc₀, aline, hj₀, hanc₀, haline, hpd, ?_, ?_⟩
    · intro j' f' h1 h2 hf'
      exact hnear j' (f'.depth, is_last_entry f' files[j' + 1]?) h1 h2 (by
        rw [entry_flags_getElem, hf']; rfl)
    · have hcol : line.columns[d - 1]? =
          some (column_text (is_last_entry anc₀ files[j₀ + 1]?)) := by
        rw [hcols, List.getElem?_map, List.getElem?_range (by omega)]
        simp only [Option.map_some', List.append_nil]
        rw [show (((d - 1 : Nat) : Int) + 1) = (d : Int) by omega, hflag]
      rw [hcol, habranch]
      cases is_last_entry anc₀ files[j₀ + 1]?
      · exact Or.inl ⟨by simp, by simp [column_text]⟩
      · exact Or.inr ⟨by simp, by simp [column_text]⟩

theorem sample_listing_pre_order : pre_order_invariant sample_listing := by
  refine ⟨by simp [sample_listing, sample_dir_entry], ?_⟩
  intro i h
  have hi : i = 0 ∨ i = 1 := by simp [sample_listing] at h; omega
  rcases hi with rfl | rfl
  · exact Or.inl ⟨rfl, rfl⟩
  · exact Or.inr (by simp [sample_listing, sample_file_entry])

theorem sample_listing_depths : ∀ e ∈ sample_listing, 1 ≤ e.depth ∧ e.depth ≤ 255 := by
  intro e he
  simp only [sample_listing, List.mem_cons, List.mem_singleton, List.not_mem_nil, or_false] at he
  rcases he with rfl | rfl | rfl <;> simp [sample_dir_entry, sample_file_entry]

theorem tree_columns_follow_ancestors_witness :
    pre_order_invariant sample_listing ∧
    (∀ e ∈ sample_listing, 1 ≤ e.depth ∧ e.depth ≤ 255) ∧
    ∃ lines, tree_lines sample_listing { } = some lines ∧
      lines.length = sample_listing.length :=
  ⟨sample_listing_pre_order, sample_listing_depths,
    (tree_columns_follow_ancestors { } sample_listing sample_listing_pre_order
      sample_listing_depths).imp fun _ h => ⟨h.1, h.2.1⟩⟩

/-! ## Size formatting -/

theorem digitChar_isDigit (k : Nat) (h : k < 10) : (Nat.digitChar k).isDigit = true := by
  interval_cases k <;> rfl

theorem digitChar_value (k : Nat) (h : k < 10) : (Nat.digitChar k).toNat - '0'.toNat = k := by
  interval_cases k <;> rfl

theorem decimal_foldl (l : List Char) : ∀ acc : Nat,
    l.foldl (fun acc c => 10 * acc + (c.toNat - '0'.toNat)) acc =
      acc * 10 ^ l.length + l.foldl (fun acc c => 10 * acc + (c.toNat - '0'.toNat)) 0 := by
  induction l with
  | nil => intro acc; simp
  | cons c l ih =>
    intro acc
    rw [List.foldl_cons, List.foldl_cons, ih, ih (10 * 0 + (c.toNat - '0'.toNat))]
    simp only [List.length_cons, Nat.pow_succ]
    ring

theorem decimal_value_append (l₁ l₂ : List Char) :
    decimal_value (l₁ ++ l₂) = decimal_value l₁ * 10 ^ l₂.length + decimal_value l₂ := by
  unfold decimal_value
  rw [List.foldl_append, decimal_foldl]

/-- The digits that `Nat.toDigitsCore` puts in front of `ds` are decimal digit characters whose
value is `n`. -/
theorem toDigitsCore_spec (fuel : Nat) : ∀ (n : Nat) (ds : List Char), n < fuel →
    ∃ pre, Nat.toDigitsCore 10 fuel n ds = pre ++ ds ∧ decimal_value pre = n ∧
      (∀ c ∈ pre, c.isDigit = true) ∧ pre ≠ [] := by
  induction fuel with
  | zero => intro n ds h; omega
  | succ fuel ih =>
    intro n ds h
    simp only [Nat.toDigitsCore]
    split
    · rename_i h0
      refine ⟨[Nat.digitChar (n % 10)], rfl, ?_, ?_, by simp⟩
      · have : n % 10 = n := by omega
        simp only [decimal_value, List.foldl_cons, List.foldl_nil, Nat.mul_zero, Nat.zero_add]
        rw [digitChar_value _ (Nat.mod_lt _ (by decide)), this]
      · intro c hc
        rw [List.mem_singleton.mp hc]
        exact digitChar_isDigit _ (Nat.mod_lt _ (by decide))
    · rename_i h0
      obtain ⟨pre, h1, h2, h3, _⟩ := ih (n / 10) (Nat.digitChar (n % 10) :: ds) (by omega)
      refine ⟨pre ++ [Nat.digitChar (n % 10)], by simp [h1], ?_, ?_, by simp⟩
      · rw [decimal_value_append, h2]
        simp only [decimal_value, List.foldl_cons, List.foldl_nil, Nat.mul_zero, Nat.zero_add,
          List.length_singleton, Nat.pow_one]
        rw [digitChar_value _ (Nat.mod_lt _ (by decide))]
        omega
      · intro c hc
        rcases List.mem_append.mp hc with hc | hc
        · exact h3 c hc
        · rw [List.mem_singleton.mp hc]
          exact digitChar_isDigit _ (Nat.mod_lt _ (by decide))

/-- The text `to_string(n)` consists of decimal digits and denotes `n`. -/
theorem toString_nat_spec (n : Nat) :
    (∀ c ∈ (toString n).data, c.isDigit = true) ∧ decimal_value (toString n).data = n ∧
      (toString n).data ≠ [] := by
  show (∀ c ∈ (Nat.repr n).data, c.isDigit = true) ∧ decimal_value (Nat.repr n).data = n ∧
    (Nat.repr n).data ≠ []
  obtain ⟨pre, h1, h2, h3, h4⟩ := toDigitsCore_spec (n + 1) n [] (Nat.lt_succ_self n)
  simp only [Nat.repr, Nat.toDigits, List.asString, h1, List.append_nil]
  exact ⟨h3, h2, h4⟩

/-- C13: `format_file_size(size, false)` is the decimal representation of `size` (a non-empty
run of decimal digits whose value is `size`, so unscaled and without fractional digits),
followed by a space and the letter `B`; 1536 gives `1536 B` and 0 gives `0 B`. -/
theorem format_file_size_plain (size : Nat) :
    format_file_size size false = toString size ++ " B" ∧
    (∀ c ∈ (toString size).data, c.isDigit = true) ∧
    decimal_value (toString size).data = size ∧
    (toString size).data ≠ [] ∧
    format_file_size 1536 false = "1536 B" ∧
    format_file_size 0 false = "0 B" := by
  obtain ⟨h1, h2, h3⟩ := toString_nat_spec size
  exact ⟨rfl, h1, h2, h3, by decide, by decide⟩

/-- The number of divisions the scaling loop performs: the largest `k ≤ 4` with
`1024 ^ k ≤ value`, and 0 when there is none. -/
theorem scale_loop_spec (value : Nat) :
    scale_loop value 4 0 ≤ 4 ∧
    (scale_loop value 4 0 = 0 ∨ 1024 ^ scale_loop value 4 0 ≤ value) ∧
    (scale_loop value 4 0 < 4 → value < 1024 ^ (scale_loop value 4 0 + 1)) := by
  simp only [scale_loop]
  norm_num
  split_ifs <;> norm_num <;> omega

theorem toString_digit (d : Nat) (h : d < 10) : toString d = String.mk [Nat.digitChar d] := by
  interval_cases d <;> rfl

theorem fixed2_spec (h : Nat) :
    fixed2 h = toString (h / 100) ++ "." ++
      String.mk [Nat.digitChar (h % 100 / 10), Nat.digitChar (h % 10)] ∧
    (Nat.digitChar (h % 100 / 10)).isDigit = true ∧ (Nat.digitChar (h % 10)).isDigit = true ∧
    decimal_value [Nat.digitChar (h % 100 / 10), Nat.digitChar (h % 10)] = h % 100 := by
  refine ⟨?_, digitChar_isDigit _ (by omega), digitChar_isDigit _ (by omega), ?_⟩
  · unfold fixed2
    rw [toString_digit (h % 100 / 10) (by omega), toString_digit (h % 10) (by omega)]
    apply String.ext
    simp
  · simp only [decimal_value, List.foldl_cons, List.foldl_nil, Nat.mul_zero, Nat.zero_add]
    rw [digitChar_value _ (by omega), digitChar_value _ (by omega)]
    omega

/-- The rendering loop succeeds exactly when every depth is a valid index of the table. -/
theorem render_loop_isSome_iff (options : FileTreeOptions) : ∀ (files : List FileInfo)
    (tbl : List Bool), tbl.length = 256 →
    ((render_loop options tbl files).isSome = true ↔
      ∀ e ∈ files, 0 ≤ e.depth ∧ e.depth ≤ 255) := by
  intro files
  induction files with
  | nil => intro tbl _; simp [render_loop]
  | cons f rest ih =>
    intro tbl hlen
    rw [render_loop]
    simp only [List.mem_cons, forall_eq_or_imp]
    by_cases h0 : f.depth = 0
    · rw [if_pos h0, Option.isSome_map', ih tbl hlen]
      constructor
      · intro h; exact ⟨by omega, h⟩
      · intro h; exact h.2
    · rw [if_neg h0]
      by_cases hin : 0 ≤ f.depth ∧ f.depth < tbl.length
      · rw [if_pos hin, draw_columns_spec _ _ _ (by simp only [List.length_set]; omega)]
        simp only [Option.isSome_map']
        rw [ih _ (by simpa using hlen)]
        constructor
        · intro h; exact ⟨by omega, h⟩
        · intro h; exact h.2
      · rw [if_neg hin]
        simp only [Option.isSome_none, Bool.false_eq_true, false_iff, not_and]
        intro hf
        omega

/-- A successful run of the rendering loop writes one line per entry, and the line of an entry
of non-zero depth carries the icon, the name and the optional size. -/
theorem render_loop_lines (options : FileTreeOptions) : ∀ (files : List FileInfo)
    (tbl : List Bool) (lines : List TreeLine), render_loop options tbl files = some lines →
    lines.length = files.length ∧
    ∀ (i : Nat) (file : FileInfo), files[i]? = some file → file.depth ≠ 0 →
      ∃ line, lines[i]? = some line ∧
        line.label = entry_icon_name file ++
          (if options.show_size then
            " (" ++ format_file_size file.size options.human_readable ++ ")"
          else "") := by
  intro files
  induction files with
  | nil =>
    intro tbl lines h
    simp only [render_loop, Option.some.injEq] at h
    subst h
    exact ⟨rfl, fun i file hf => by simp at hf⟩
  | cons f rest ih =>
    intro tbl lines h
    rw [render_loop] at h
    by_cases h0 : f.depth = 0
    · rw [if_pos h0] at h
      obtain ⟨lines', hrun, rfl⟩ := Option.map_eq_some'.mp h
      obtain ⟨hl, hs⟩ := ih tbl lines' hrun
      refine ⟨by simp [hl], ?_⟩
      intro i file hfile hd
      cases i with
      | zero =>
        simp only [List.getElem?_cons_zero, Option.some.injEq] at hfile
        exact absurd (hfile ▸ h0) hd
      | succ i => simpa using hs i file (by simpa using hfile) hd
    · rw [if_neg h0] at h
      simp only [] at h
      split at h
      · split at h
        · simp at h
        · obtain ⟨lines', hrun, rfl⟩ := Option.map_eq_some'.mp h
          obtain ⟨hl, hs⟩ := ih _ lines' hrun
          refine ⟨by simp [hl], ?_⟩
          intro i file hfile hd
          cases i with
          | zero =>
            simp only [List.getElem?_cons_zero, Option.some.injEq] at hfile
            subst hfile
            exact ⟨_, List.getElem?_cons_zero, rfl⟩
          | succ i => simpa using hs i file (by simpa using hfile) hd
      · simp at h

/-- C18: `generate_tree_text` keeps its flags in a table of 256 slots indexed by depth: the
rendering runs without an out-of-bounds access exactly when every entry has a depth in
`0..255`; an entry of depth 256 or more, or of negative depth, makes it index the table out of
bounds. -/
theorem table_access_in_bounds (options : FileTreeOptions) (files : List FileInfo) :
    (List.replicate 256 false).length = 256 ∧
    tree_lines files options = render_loop options (List.replicate 256 false) files ∧
    ((tree_lines files options).isSome = true ↔ ∀ e ∈ files, 0 ≤ e.depth ∧ e.depth ≤ 255) ∧
    ((generate_tree_text files options).isSome = true ↔
      ∀ e ∈ files, 0 ≤ e.depth ∧ e.depth ≤ 255) ∧
    ((∃ e ∈ files, e.depth < 0 ∨ 256 ≤ e.depth) → generate_tree_text files options = none) := by
  have hlines := render_loop_isSome_iff options files (List.replicate 256 false)
    (List.length_replicate _ _)
  have htext : (generate_tree_text files options).isSome = true ↔
      ∀ e ∈ files, 0 ≤ e.depth ∧ e.depth ≤ 255 := by
    unfold generate_tree_text
    split
    · rename_i he
      have : files = [] := List.isEmpty_iff.mp he
      subst this
      simp
    · rw [Option.isSome_map']
      exact hlines
  refine ⟨List.length_replicate _ _, rfl, hlines, htext, ?_⟩
  rintro ⟨e, he, hbad⟩
  rw [← Option.not_isSome_iff_eq_none, htext]
  intro hall
  have := hall e he
  omega

theorem text_data (l : TreeLine) :
    l.text.data = (String.join l.columns ++ l.branch ++ l.label).data ++ ['\n'] := by
  simp [TreeLine.text]

/-- The text written for a non-empty list of lines ends with a newline. -/
theorem join_text_getLast (lines : List TreeLine) (h : lines ≠ []) :
    (String.join (lines.map TreeLine.text)).data.getLast? = some '\n' := by
  obtain ⟨init, last, rfl⟩ : ∃ init last, lines = init ++ [last] :=
    ⟨lines.dropLast, lines.getLast h, (List.dropLast_append_getLast h).symm⟩
  rw [String.data_join, List.map_append, List.map_append, List.flatten_append]
  simp only [List.map_cons, List.map_nil, List.flatten_cons, List.flatten_nil, List.append_nil,
    text_data]
  rw [← List.append_assoc, List.getLast?_append]
  rfl

/-- C14: for every options value, `generate_tree_text` applied to the empty entry list returns
exactly the message `No files found.` (no glyph, no newline), and it returns that message for
no other entry list. -/
theorem empty_listing_message (options : FileTreeOptions) :
    generate_tree_text [] options = some "No files found." ∧
    ∀ files : List FileInfo,
      generate_tree_text files options = some "No files found." → files = [] := by
  refine ⟨rfl, ?_⟩
  intro files h
  by_contra hne
  unfold generate_tree_text at h
  rw [if_neg (by simpa [List.isEmpty_iff] using hne)] at h
  obtain ⟨lines, hrun, htext⟩ := Option.map_eq_some'.mp h
  have hlen := (render_loop_lines options files _ lines hrun).1
  have hl : lines ≠ [] := by
    intro hnil
    rw [hnil] at hlen
    exact hne (List.length_eq_zero.mp hlen.symm)
  have hlast := join_text_getLast lines hl
  rw [htext] at hlast
  revert hlast
  decide

theorem no_newline_append {s t : String} (hs : no_newline s) (ht : no_newline t) :
    no_newline (s ++ t) := by
  unfold no_newline at *
  simp only [String.data_append, List.mem_append, not_or]
  exact ⟨hs, ht⟩

theorem no_newline_of_digits {s : String} (h : ∀ c ∈ s.data, c.isDigit = true) :
    no_newline s := by
  intro hmem
  have := h _ hmem
  revert this
  decide

theorem no_newline_join (l : List String) (h : ∀ s ∈ l, no_newline s) :
    no_newline (String.join l) := by
  unfold no_newline at *
  simp only [String.data_join, List.mem_flatten, List.mem_map, not_exists, not_and]
  rintro _ ⟨s, hs, rfl⟩
  exact h s hs

theorem no_newline_format_file_size (size : Nat) (human_readable : Bool) :
    no_newline (format_file_size size human_readable) := by
  cases human_readable with
  | false =>
    show no_newline (toString size ++ " B")
    exact no_newline_append (no_newline_of_digits (toString_nat_spec size).1) (by unfold no_newline; decide)
  | true =>
    obtain ⟨hk4, _, _⟩ := scale_loop_spec (to_double size)
    simp only [format_file_size, Bool.not_true, Bool.false_eq_true, if_false]
    generalize scale_loop (to_double size) 4 0 = k at hk4
    rw [(fixed2_spec _).1]
    refine no_newline_append (no_newline_append (no_newline_append (no_newline_append
      (no_newline_of_digits (toString_nat_spec _).1) (by unfold no_newline; decide)) ?_) (by unfold no_newline; decide)) ?_
    · apply no_newline_of_digits
      intro c hc
      simp only [List.mem_cons, List.mem_singleton, List.not_mem_nil, or_false] at hc
      rcases hc with rfl | rfl
      · exact digitChar_isDigit _ (by omega)
      · exact digitChar_isDigit _ (by omega)
    · unfold no_newline
      interval_cases k <;> decide

theorem count_newline_join (lines : List TreeLine)
    (h : ∀ l ∈ lines, no_newline (String.join l.columns ++ l.branch ++ l.label)) :
    (String.join (lines.map TreeLine.text)).data.count '\n' = lines.length := by
  induction lines with
  | nil => rfl
  | cons l rest ih =>
    have hl := h l (List.mem_cons_self _ _)
    have hr := ih fun x hx => h x (List.mem_cons_of_mem _ hx)
    rw [String.data_join] at hr ⊢
    rw [List.map_cons, List.map_cons, List.flatten_cons, List.count_append, hr, text_data,
      List.count_append, List.count_eq_zero_of_not_mem hl, List.count_singleton_self,
      List.length_cons]
    omega

/-- C11: for every non-empty entry list with depths between 1 and 255 and names free of
newlines, the output of `generate_tree_text` is the concatenation, in input order, of one
newline-terminated line per entry: it holds as many newlines as there are entries, no line is
blank, and in each line the branch glyph is followed by the folder icon and the name for a
directory, or the page icon and the name for a file, and then by the size in parentheses,
formatted by `format_file_size`, exactly when `show_size` is set. -/
theorem tree_text_one_line_per_entry (options : FileTreeOptions) (files : List FileInfo)
    (hne : files ≠ []) (hdepth : ∀ e ∈ files, 1 ≤ e.depth ∧ e.depth ≤ 255)
    (hnames : ∀ e ∈ files, no_newline e.name) :
    ∃ lines, tree_lines files options = some lines ∧
      generate_tree_text files options = some (String.join (lines.map TreeLine.text)) ∧
      lines.length = files.length ∧
      (String.join (lines.map TreeLine.text)).data.count '\n' = files.length ∧
      ∀ (i : Nat) (file : FileInfo), files[i]? = some file →
        ∃ line, lines[i]? = some line ∧
          line.text = String.join line.columns ++ line.branch ++ line.label ++ "\n" ∧
          (line.branch = "├── " ∨ line.branch = "└── ") ∧
          line.label =
            (if file.is_directory then "📁 " ++ file.name else "📄 " ++ file.name) ++
              (if options.show_size then
                " (" ++ format_file_size file.size options.human_readable ++ ")"
              else "") ∧
          no_newline (String.join line.columns ++ line.branch ++ line.label) ∧
          String.join line.columns ++ line.branch ++ line.label ≠ "" := by
  obtain ⟨lines, hrun, hlen, hspec⟩ := render_loop_spec options files []
    (List.replicate 256 false) (List.length_replicate _ _) (by
      intro d hd
      rw [List.getElem?_replicate_of_lt hd]
      rfl) hdepth
  obtain ⟨_, hlabels⟩ := render_loop_lines options files _ lines hrun
  have hentry : ∀ (i : Nat) (file : FileInfo), files[i]? = some file →
      ∃ line, lines[i]? = some line ∧
        (line.branch = "├── " ∨ line.branch = "└── ") ∧
        line.label =
          (if file.is_directory then "📁 " ++ file.name else "📄 " ++ file.name) ++
            (if options.show_size then
              " (" ++ format_file_size file.size options.human_readable ++ ")"
            else "") ∧
        no_newline (String.join line.columns ++ line.branch ++ line.label) := by
    intro i file hfile
    have hfd := hdepth file (List.getElem?_mem hfile)
    have hfn := hnames file (List.getElem?_mem hfile)
    obtain ⟨line, hline, hbranch, hcols⟩ := hspec i file hfile
    obtain ⟨line', hline', hlabel⟩ := hlabels i file hfile (by omega)
    rw [hline, Option.some.injEq] at hline'
    subst hline'
    have hb : line.branch = "├── " ∨ line.branch = "└── " := by
      rw [hbranch]
      split
      · exact Or.inr rfl
      · exact Or.inl rfl
    refine ⟨line, hline, hb, hlabel, ?_⟩
    refine no_newline_append (no_newline_append ?_ ?_) ?_
    · apply no_newline_join
      rw [hcols]
      intro s hs
      obtain ⟨k, _, rfl⟩ := List.mem_map.mp hs
      unfold column_text no_newline
      split <;> decide
    · unfold no_newline
      rcases hb with h | h <;> rw [h] <;> decide
    · rw [hlabel]
      refine no_newline_append ?_ ?_
      · unfold entry_icon_name
        split
        · exact no_newline_append (by unfold no_newline; decide) hfn
        · exact no_newline_append (by unfold no_newline; decide) hfn
      · split
        · exact no_newline_append (no_newline_append (by unfold no_newline; decide)
            (no_newline_format_file_size _ _)) (by unfold no_newline; decide)
        · unfold no_newline; decide
  refine ⟨lines, hrun, ?_, hlen, ?_, ?_⟩
  · unfold generate_tree_text
    rw [if_neg (by simpa [List.isEmpty_iff] using hne),
      show tree_lines files options = some lines from hrun]
    rfl
  · rw [← hlen]
    apply count_newline_join
    intro l hl
    obtain ⟨i, hi⟩ := List.getElem?_of_mem hl
    have hlt : i < files.length := by
      rw [← hlen]
      exact (List.getElem?_eq_some_iff.mp hi).1
    obtain ⟨line, hline, _, _, hnn⟩ := hentry i files[i] (List.getElem?_eq_getElem hlt)
    rw [hi, Option.some.injEq] at hline
    exact hline ▸ hnn
  · intro i file hfile
    obtain ⟨line, hline, hb, hlabel, hnn⟩ := hentry i file hfile
    refine ⟨line, hline, rfl, hb, hlabel, hnn, ?_⟩
    intro hempty
    have hd := congrArg String.data hempty
    simp only [String.data_append] at hd
    have hbd : line.branch.data ≠ [] := by
      rcases hb with h | h <;> rw [h] <;> decide
    have : line.branch.data = [] := by
      have h1 := List.append_eq_nil.mp hd
      exact (List.append_eq_nil.mp h1.1).2
    exact hbd this

theorem depth_steps_of_pre_order {files : List FileInfo} (h : pre_order_invariant files) :
    depth_steps files := by
  refine ⟨h.1, ?_⟩
  intro i hi
  rcases h.2 i hi with ⟨h1, _⟩ | h1 <;> omega

/-- With steps of at most one level down, every depth from 1 up to that of an entry occurs at
or before it. -/
theorem exists_depth_before_steps (files : List FileInfo) (hsteps : depth_steps files) :
    ∀ (i : Nat) (file : FileInfo), files[i]? = some file → ∀ d : Int, 1 ≤ d → d ≤ file.depth →
      ∃ (j : Nat) (anc : FileInfo), j ≤ i ∧ files[j]? = some anc ∧ anc.depth = d := by
  intro i
  induction i with
  | zero =>
    intro file hfile d h1 h2
    have h0 : file.depth = 1 := hsteps.1 file (by rw [List.head?_eq_getElem?]; exact hfile)
    exact ⟨0, file, le_refl 0, hfile, by omega⟩
  | succ i ih =>
    intro file hfile d h1 h2
    have hlen : i + 1 < files.length := (List.getElem?_eq_some_iff.mp hfile).1
    have hstep := hsteps.2 i hlen
    have hfe : files[i + 1] = file := (List.getElem?_eq_some_iff.mp hfile).2
    rw [hfe] at hstep
    by_cases hd : d = file.depth
    · exact ⟨i + 1, file, le_refl _, hfile, hd.symm⟩
    · obtain ⟨j, anc, hj, hanc, hancd⟩ :=
        ih files[i] (List.getElem?_eq_getElem (by omega)) d h1 (by omega)
      exact ⟨j, anc, by omega, hanc, hancd⟩

/-- Between the nearest earlier entry of depth `d` and a deeper entry, every entry is deeper
than `d`. -/
theorem deeper_after (files : List FileInfo) (hsteps : depth_steps files) (d : Int)
    (j i : Nat) (file : FileInfo) (hfile : files[i]? = some file) (hd : d < file.depth)
    (hnear : ∀ (j' : Nat) (f' : FileInfo), j < j' → j' < i → files[j']? = some f' →
      f'.depth ≠ d) :
    ∀ (t m : Nat) (fm : FileInfo), m + t = i → j < m → files[m]? = some fm → d < fm.depth := by
  intro t
  induction t with
  | zero =>
    intro m fm hm _ hfm
    have : m = i := by omega
    subst this
    rw [hfile, Option.some.injEq] at hfm
    exact hfm ▸ hd
  | succ t ih =>
    intro m fm hm hj hfm
    have hi : i < files.length := (List.getElem?_eq_some_iff.mp hfile).1
    have hm1 : m + 1 < files.length := by omega
    have hnext := ih (m + 1) files[m + 1] (by omega) (by omega) (List.getElem?_eq_getElem hm1)
    have hstep := hsteps.2 m hm1
    have hfe : files[m] = fm := (List.getElem?_eq_some_iff.mp hfm).2
    rw [hfe] at hstep
    have hne := hnear m fm hj (by omega) hfm
    omega

/-- C15: for every entry list that starts at depth 1, keeps its depths between 1 and 255 and
never descends by more than one level at a time, the line of an entry of depth `k` begins with
exactly `k - 1` copies of the continuation column `│   `; the blank column is never written,
because an entry followed by a deeper entry is always flagged not-last. -/
theorem columns_always_continue (options : FileTreeOptions) (files : List FileInfo)
    (hsteps : depth_steps files) (hdepth : ∀ e ∈ files, 1 ≤ e.depth ∧ e.depth ≤ 255) :
    (∃ lines, tree_lines files options = some lines ∧ lines.length = files.length ∧
      ∀ (i : Nat) (file : FileInfo), files[i]? = some file →
        ∃ line, lines[i]? = some line ∧
          line.columns = List.replicate (file.depth.toNat - 1) "│   " ∧
          "    " ∉ line.columns ∧
          line.text = String.join (List.replicate (file.depth.toNat - 1) "│   ") ++
            line.branch ++ line.label ++ "\n") ∧
    ∀ file next : FileInfo, file.depth < next.depth →
      is_last_entry file (some next) = false := by
  have hflag : ∀ file next : FileInfo, file.depth < next.depth →
      is_last_entry file (some next) = false := by
    intro file next h
    simp only [is_last_entry]
    rw [if_pos h]
  refine ⟨?_, hflag⟩
  obtain ⟨lines, hrun, hlen, hspec⟩ := render_loop_spec options files []
    (List.replicate 256 false) (List.length_replicate _ _) (by
      intro d hd
      rw [List.getElem?_replicate_of_lt hd]
      rfl) hdepth
  refine ⟨lines, hrun, hlen, ?_⟩
  intro i file hfile
  obtain ⟨line, hline, _, hcols⟩ := hspec i file hfile
  have hi : i < files.length := (List.getElem?_eq_some_iff.mp hfile).1
  have hrep : line.columns = List.replicate (file.depth.toNat - 1) "│   " := by
    rw [hcols, List.eq_replicate_iff]
    refine ⟨by simp, ?_⟩
    intro s hs
    obtain ⟨k, hk, rfl⟩ := List.mem_map.mp hs
    have hk' : k < file.depth.toNat - 1 := List.mem_range.mp hk
    have hfd := hdepth file (List.getElem?_mem hfile)
    obtain ⟨j, anc, hj, hanc, hancd⟩ :=
      exists_depth_before_steps files hsteps i file hfile ((k : Int) + 1) (by omega) (by omega)
    have hji : j < i := by
      rcases Nat.lt_or_eq_of_le hj with h | h
      · exact h
      · subst h
        rw [hfile, Option.some.injEq] at hanc
        subst hanc
        omega
    obtain ⟨j₀, p, hj₀, hp, hpd, hnear, hfl⟩ :=
      flag_at_take (entry_flags files) ((k : Int) + 1) i (by rw [length_entry_flags]; omega)
        ⟨j, (anc.depth, is_last_entry anc files[j + 1]?), hji, by
          rw [entry_flags_getElem, hanc]; rfl, hancd⟩
    rw [entry_flags_getElem] at hp
    obtain ⟨anc₀, hanc₀, hp₀⟩ := Option.map_eq_some'.mp hp
    subst hp₀
    have hnext : j₀ + 1 < files.length := by omega
    have hdeep := deeper_after files hsteps ((k : Int) + 1) j₀ i file hfile (by omega)
      (fun j' f' h1 h2 hf' => hnear j' (f'.depth, is_last_entry f' files[j' + 1]?) h1 h2 (by
        rw [entry_flags_getElem, hf']; rfl))
      (i - (j₀ + 1)) (j₀ + 1) files[j₀ + 1] (by omega) (by omega)
      (List.getElem?_eq_getElem hnext)
    simp only [List.append_nil]
    rw [hfl, List.getElem?_eq_getElem hnext, hflag anc₀ files[j₀ + 1] (by
      have : anc₀.depth = (k : Int) + 1 := hpd
      omega)]
    rfl
  refine ⟨line, hline, hrep, ?_, ?_⟩
  · rw [hrep]
    intro hmem
    have := List.eq_of_mem_replicate hmem
    revert this
    decide
  · rw [← hrep]
    rfl

/-! ## Depth limit and completeness of the scan -/

/-- Under a limit `max_depth ≥ 0`, scanning a directory that is itself within the limit emits
directories up to the limit and files up to one level below it. -/
theorem scan_children_depth_bound (rx : RegexEngine) (options : FileTreeOptions)
    (hmax : 0 ≤ options.max_depth) :
    ∀ (listing : List Node) (path : List String) (depth : Int), 0 ≤ depth →
      depth ≤ options.max_depth →
      ∀ e ∈ scan_children rx options path listing depth,
        (e.is_directory = true → e.depth ≤ options.max_depth) ∧
        (e.is_directory = false → e.depth ≤ options.max_depth + 1) := by
  intro listing
  induction listing using listing_induction with
  | step listing ih =>
    intro path depth hdepth hle e he
    unfold scan_children at he
    obtain ⟨c, hc, hec⟩ := List.mem_flatMap.mp he
    have hcl := (mem_collect_entries.mp hc).1
    unfold scan_entry at hec
    split at hec
    · rw [scan_recursive_unfold] at hec
      split at hec
      · simp at hec
      · rename_i hnp
        rw [if_pos (by omega)] at hec
        rcases List.mem_append.mp hec with h | h
        · rw [List.mem_singleton.mp h]
          simp only [dir_info, Bool.true_eq_false, false_implies, and_true]
          intro _
          omega
        · exact ih c hcl _ _ (by omega) (by omega) e h
    · rw [List.mem_singleton.mp hec]
      simp only [Bool.false_eq_true, false_implies, true_and]
      intro _
      omega

/-- A file of the listing that is not excluded is emitted by the loop of `scan_recursive`. -/
theorem scan_children_emits_files (rx : RegexEngine) (options : FileTreeOptions)
    (listing : List Node) (path : List String) (depth : Int) (c : Node) (hc : c ∈ listing)
    (hfile : c.is_directory = false)
    (hx : should_exclude rx c.name options.exclude_patterns = false) :
    file_info path depth c ∈ scan_children rx options path listing depth := by
  unfold scan_children
  refine List.mem_flatMap.mpr ⟨c, mem_collect_entries.mpr ⟨hc, hx⟩, ?_⟩
  unfold scan_entry
  rw [if_neg (by simp [hfile])]
  exact List.mem_singleton.mpr rfl

/-- What is emitted for the contents of a subdirectory within the limit is part of what is
emitted for the directory. -/
theorem scan_children_of_subdirectory (rx : RegexEngine) (options : FileTreeOptions)
    (listing : List Node) (path : List String) (depth : Int) (c : Node) (hc : c ∈ listing)
    (hdir : c.is_directory = true)
    (hx : should_exclude rx c.name options.exclude_patterns = false)
    (hlim : options.max_depth < 0 ∨ depth + 1 ≤ options.max_depth) (e : FileInfo)
    (he : e ∈ scan_children rx options (path ++ [c.name]) c.children (depth + 1)) :
    e ∈ scan_children rx options path listing depth := by
  unfold scan_children
  refine List.mem_flatMap.mpr ⟨c, mem_collect_entries.mpr ⟨hc, hx⟩, ?_⟩
  unfold scan_entry
  rw [if_pos hdir, scan_recursive_unfold, if_neg (by omega)]
  exact List.mem_append_right _ he

theorem is_directory_of_child {n c : Node} (h : c ∈ n.children) : n.is_directory = true := by
  cases n with
  | file a s => simp [Node.children] at h
  | dir a cs => rfl

/-- Every non-excluded file in a directory that is reached by non-excluded names within the
depth limit is emitted. -/
theorem scan_children_complete (rx : RegexEngine) (options : FileTreeOptions) :
    ∀ (rel : List String) (listing : List Node) (path : List String) (depth : Int),
      0 ≤ depth →
      (∀ a ∈ rel, should_exclude rx a options.exclude_patterns = false) →
      (options.max_depth < 0 ∨ depth + rel.length ≤ options.max_depth) →
      ∀ n ∈ nodes_at listing rel, ∀ c ∈ n.children, c.is_directory = false →
        should_exclude rx c.name options.exclude_patterns = false →
        file_info (path ++ rel) (depth + rel.length) c ∈
          scan_children rx options path listing depth := by
  intro rel
  induction rel with
  | nil => intro listing path depth _ _ _ n hn; simp [nodes_at] at hn
  | cons a rel ih =>
    intro listing path depth hdepth hx hlim n hn c hc hfile hcx
    have hxa := hx a (List.mem_cons_self _ _)
    by_cases hrel : rel = []
    · subst hrel
      obtain ⟨hnl, hna⟩ := mem_nodes_at_single.mp hn
      subst hna
      have := scan_children_emits_files rx options n.children (path ++ [n.name]) (depth + 1) c
        hc hfile hcx
      have hmem := scan_children_of_subdirectory rx options listing path depth n hnl
        (is_directory_of_child hc) hxa (by simpa using hlim) _ this
      simpa using hmem
    · obtain ⟨mid, hmid, hma, hn'⟩ := (mem_nodes_at_cons hrel).mp hn
      subst hma
      have hne : mid.children ≠ [] := by
        intro hnil
        rw [hnil] at hn'
        cases rel with
        | nil => exact hrel rfl
        | cons b r => cases r <;> simp [nodes_at] at hn'
      have hmdir : mid.is_directory = true := by
        cases mid with
        | file x s => exact absurd rfl hne
        | dir x cs => rfl
      have hlen : (1 : Int) ≤ rel.length := by
        cases rel with
        | nil => exact absurd rfl hrel
        | cons b r => simp
      have := ih mid.children (path ++ [mid.name]) (depth + 1) (by omega)
        (fun x hxx => hx x (List.mem_cons_of_mem _ hxx))
        (by simp only [List.length_cons, Nat.cast_add, Nat.cast_one] at hlim; omega)
        n hn' c hc hfile hcx
      have hmem := scan_children_of_subdirectory rx options listing path depth mid hmid hmdir
        hxa (by simp only [List.length_cons, Nat.cast_add, Nat.cast_one] at hlim; omega)
        _ this
      have e1 : path ++ [mid.name] ++ rel = path ++ mid.name :: rel := by simp
      have e2 : depth + 1 + (rel.length : Int) = depth + ((mid.name :: rel).length : Int) := by
        simp only [List.length_cons, Nat.cast_add, Nat.cast_one]; omega
      rw [e1, e2] at hmem
      exact hmem

theorem scan_sample_depth_zero :
    scan_directory literal_engine sample_tree { max_depth := 0 } =
      [ file_info [] 0 (.file "a.txt" 2), file_info [] 0 (.file "b.txt" 7) ] := by
  unfold sample_tree
  rw [scan_directory_eq_children]
  simp +decide [scan_children, scan_entry, collect_entries, should_exclude, sort_entries,
    sort_insert, entry_less, Node.is_directory, Node.name, Node.children, Node.file_size,
    scan_recursive_unfold, dir_info, file_info]

/-- C16: the depth limit of `scan_directory` binds directories only. With `max_depth = m ≥ 0`
every directory entry returned has depth at most `m` and every file entry depth at most
`m + 1`; every non-excluded file directly in the root, and every non-excluded file directly in
a directory that was emitted, is returned, one level below that directory; with
`max_depth = 0` the root's own files are returned at depth 1. -/
theorem depth_limit_binds_directories_only (rx : RegexEngine) (root : Node)
    (options : FileTreeOptions) (hmax : 0 ≤ options.max_depth) :
    (∀ e ∈ scan_directory rx root options,
      (e.is_directory = true → e.depth ≤ options.max_depth) ∧
      (e.is_directory = false → e.depth ≤ options.max_depth + 1)) ∧
    (∀ c ∈ root.children, c.is_directory = false →
      should_exclude rx c.name options.exclude_patterns = false →
        file_info [] 0 c ∈ scan_directory rx root options) ∧
    (∀ e ∈ scan_directory rx root options, e.is_directory = true →
      ∀ n ∈ nodes_at root.children e.path, ∀ c ∈ n.children, c.is_directory = false →
        should_exclude rx c.name options.exclude_patterns = false →
          file_info e.path e.depth c ∈ scan_directory rx root options) ∧
    scan_directory literal_engine sample_tree { max_depth := 0 } =
      [ file_info [] 0 (.file "a.txt" 2), file_info [] 0 (.file "b.txt" 7) ] := by
  refine ⟨?_, ?_, ?_, scan_sample_depth_zero⟩
  · cases root with
    | file a s => intro e he; simp [scan_directory] at he
    | dir a listing =>
      rw [scan_directory_eq_children]
      exact scan_children_depth_bound rx options hmax listing [] 0 (le_refl 0) hmax
  · cases root with
    | file a s => intro c hc; simp [Node.children] at hc
    | dir a listing =>
      rw [scan_directory_eq_children]
      intro c hc hfile hx
      exact scan_children_emits_files rx options listing [] 0 c hc hfile hx
  · intro e he hdir n hn c hc hfile hcx
    obtain ⟨rel, _, _, h1, _, h3, h4, _, _, _⟩ := scan_directory_describes rx root options e he
    simp only [List.nil_append] at h1
    cases root with
    | file a s => simp [scan_directory] at he
    | dir a listing =>
      rw [scan_directory_eq_children] at he ⊢
      have hb := (scan_children_depth_bound rx options hmax listing [] 0 (le_refl 0) hmax
        e he).1 hdir
      have := scan_children_complete rx options e.path listing [] 0 (le_refl 0)
        (by rw [h1]; exact h4) (Or.inr (by rw [h1, ← h3]; exact hb)) n hn c hc hfile hcx
      rw [h3, ← h1]
      simpa using this

theorem nodes_below_eq (c : Node) (path : List String) :
    c.nodes_below path = listing_below c.children path := by
  cases c with
  | file a s => simp [Node.nodes_below, Node.children, listing_below]
  | dir a cs => simp [Node.nodes_below, Node.children]

/-- The nodes enumerated by `listing_below` are those of `recursive_directory_iterator`. -/
theorem listing_below_nodes : ∀ (listing : List Node) (path : List String),
    (listing_below listing path).map Prod.snd = recursive_directory_iterator listing := by
  intro listing
  induction listing using listing_induction with
  | step listing ih =>
    induction listing with
    | nil => intro path; simp [listing_below, recursive_directory_iterator]
    | cons c rest ihr =>
      intro path
      simp only [listing_below, recursive_directory_iterator, List.map_cons, List.map_append,
        nodes_below_eq, descendants_eq]
      rw [ih c (List.mem_cons_self _ _), ihr fun x hx => ih x (List.mem_cons_of_mem _ hx)]

/-- Each enumerated node lies at its path: the path extends that of the directory by the names
that lead to the node. -/
theorem listing_below_at : ∀ (listing : List Node) (path : List String)
    (p : List String × Node), p ∈ listing_below listing path →
    ∃ rel, p.1 = path ++ rel ∧ p.2 ∈ nodes_at listing rel := by
  intro listing
  induction listing using listing_induction with
  | step listing ih =>
    have key : ∀ (l : List Node), (∀ c ∈ l, c ∈ listing) → ∀ (path : List String)
        (p : List String × Node), p ∈ listing_below l path →
        ∃ rel, p.1 = path ++ rel ∧ p.2 ∈ nodes_at listing rel := by
      intro l
      induction l with
      | nil => intro _ path p hp; simp [listing_below] at hp
      | cons c rest ihr =>
        intro hsub path p hp
        have hc := hsub c (List.mem_cons_self _ _)
        simp only [listing_below, List.mem_cons, List.mem_append, nodes_below_eq] at hp
        rcases hp with rfl | hp | hp
        · exact ⟨[c.name], rfl, mem_nodes_at_single.mpr ⟨hc, rfl⟩⟩
        · obtain ⟨rel, h1, h2⟩ := ih c hc _ p hp
          refine ⟨c.name :: rel, by rw [h1]; simp, ?_⟩
          exact (mem_nodes_at_cons (nodes_at_ne_nil h2)).mpr ⟨c, hc, rfl, h2⟩
        · exact ihr (fun x hx => hsub x (List.mem_cons_of_mem _ hx)) path p hp
    exact key listing fun c hc => hc

theorem collect_entries_perm (rx : RegexEngine) (options : FileTreeOptions)
    (hex : options.exclude_patterns = []) (listing : List Node) :
    (collect_entries rx options listing).Perm listing := by
  unfold collect_entries
  refine (sort_entries_perm _).trans ?_
  rw [List.filter_eq_self.mpr]
  intro a _
  simp [hex, should_exclude]

/-- Without depth limit and exclusions, what the loop of `scan_recursive` emits for a directory
is, up to order, one entry for each node below it. -/
theorem scan_children_perm (rx : RegexEngine) (options : FileTreeOptions)
    (hmax : options.max_depth = -1) (hex : options.exclude_patterns = []) :
    ∀ (listing : List Node) (path : List String),
      (scan_children rx options path listing path.length).Perm
        ((listing_below listing path).map node_info) := by
  intro listing
  induction listing using listing_induction with
  | step listing ih =>
    intro path
    unfold scan_children
    refine (List.Perm.flatMap_right _ (collect_entries_perm rx options hex listing)).trans ?_
    have key : ∀ (l : List Node), (∀ c ∈ l, c ∈ listing) →
        (l.flatMap (scan_entry rx options path path.length)).Perm
          ((listing_below l path).map node_info) := by
      intro l
      induction l with
      | nil => intro _; simp [listing_below]
      | cons c rest ihr =>
        intro hsub
        have hc := hsub c (List.mem_cons_self _ _)
        have hlen : (((path ++ [c.name]).length : Nat) : Int) = (path.length : Int) + 1 := by
          simp
        rw [List.flatMap_cons]
        simp only [listing_below, List.map_cons, List.map_append, nodes_below_eq]
        rw [← List.cons_append]
        refine List.Perm.append ?_ (ihr fun x hx => hsub x (List.mem_cons_of_mem _ hx))
        unfold scan_entry
        split
        · rename_i hdir
          rw [scan_recursive_unfold, if_neg (by omega), if_pos (by omega)]
          have hhead : dir_info (path ++ [c.name]) c.children ((path.length : Int) + 1) =
              node_info (path ++ [c.name], c) := by
            simp [dir_info, node_info, hdir]
          rw [List.singleton_append, hhead, ← hlen]
          exact List.Perm.cons _ (ih c hc (path ++ [c.name]))
        · rename_i hdir
          have hnil : listing_below c.children (path ++ [c.name]) = [] := by
            cases c with
            | file a s => simp [Node.children, listing_below]
            | dir a cs => simp [Node.is_directory] at hdir
          rw [hnil]
          simp [node_info, hdir]
    exact key listing fun c hc => hc

/-- C17: with `max_depth = -1` and no exclusion patterns, `scan_directory` returns exactly one
entry for every file and directory strictly below the root and none for the root: the result
is a rearrangement of the entries that describe those nodes, so its length is their number,
and each entry carries its node's base name, kind and distance from the root (the length of
the path that leads to the node), which is at least 1. -/
theorem unlimited_scan_lists_every_node (rx : RegexEngine) (root : Node)
    (options : FileTreeOptions) (hmax : options.max_depth = -1)
    (hex : options.exclude_patterns = []) :
    (scan_directory rx root options).Perm ((listing_below root.children []).map node_info) ∧
    (listing_below root.children []).map Prod.snd = recursive_directory_iterator root.children ∧
    (scan_directory rx root options).length =
      (recursive_directory_iterator root.children).length ∧
    (∀ p ∈ listing_below root.children [], p.2 ∈ nodes_at root.children p.1) ∧
    (∀ p : List String × Node,
      (node_info p).name = p.2.name ∧ (node_info p).is_directory = p.2.is_directory ∧
        (node_info p).depth = p.1.length) ∧
    ∀ e ∈ scan_directory rx root options, 1 ≤ e.depth := by
  have hperm : (scan_directory rx root options).Perm
      ((listing_below root.children []).map node_info) := by
    cases root with
    | file a s => simp [scan_directory, Node.children, listing_below]
    | dir a listing =>
      rw [scan_directory_eq_children]
      exact scan_children_perm rx options hmax hex listing []
  have hat : ∀ p ∈ listing_below root.children [], p.2 ∈ nodes_at root.children p.1 := by
    intro p hp
    obtain ⟨rel, h1, h2⟩ := listing_below_at root.children [] p hp
    rw [h1]
    exact h2
  refine ⟨hperm, listing_below_nodes _ _, ?_, hat, fun p => ⟨rfl, rfl, rfl⟩, ?_⟩
  · rw [hperm.length_eq, List.length_map, ← listing_below_nodes root.children [],
      List.length_map]
  · intro e he
    obtain ⟨p, hp, rfl⟩ := List.mem_map.mp (hperm.mem_iff.mp he)
    have hne := nodes_at_ne_nil (hat p hp)
    show (1 : Int) ≤ (p.1.length : Int)
    have : 0 < p.1.length := List.length_pos.mpr hne
    omega

/-! ## Sample instances -/

theorem sample_listing_names : ∀ e ∈ sample_listing, no_newline e.name := by
  intro e he
  simp only [sample_listing, List.mem_cons, List.mem_singleton, List.not_mem_nil, or_false] at he
  unfold no_newline
  rcases he with rfl | rfl | rfl <;> decide

theorem tree_text_one_line_per_entry_witness :
    sample_listing ≠ [] ∧
    (∀ e ∈ sample_listing, 1 ≤ e.depth ∧ e.depth ≤ 255) ∧
    (∀ e ∈ sample_listing, no_newline e.name) ∧
    ∃ lines, tree_lines sample_listing { show_size := true } = some lines ∧
      generate_tree_text sample_listing { show_size := true } =
        some (String.join (lines.map TreeLine.text)) :=
  ⟨by simp [sample_listing], sample_listing_depths, sample_listing_names,
    (tree_text_one_line_per_entry { show_size := true } sample_listing
      (by simp [sample_listing]) sample_listing_depths sample_listing_names).imp
      fun _ h => ⟨h.1, h.2.1⟩⟩

theorem columns_always_continue_witness :
    depth_steps sample_listing ∧
    (∀ e ∈ sample_listing, 1 ≤ e.depth ∧ e.depth ≤ 255) ∧
    ∃ lines, tree_lines sample_listing { } = some lines ∧
      lines.length = sample_listing.length :=
  ⟨depth_steps_of_pre_order sample_listing_pre_order, sample_listing_depths,
    (columns_always_continue { } sample_listing
      (depth_steps_of_pre_order sample_listing_pre_order) sample_listing_depths).1.imp
      fun _ h => ⟨h.1, h.2.1⟩⟩

theorem depth_limit_binds_directories_only_witness :
    (0 : Int) ≤ ({ max_depth := 0 } : FileTreeOptions).max_depth ∧
    ∀ e ∈ scan_directory literal_engine sample_tree { max_depth := 0 },
      (e.is_directory = true → e.depth ≤ ({ max_depth := 0 } : FileTreeOptions).max_depth) ∧
      (e.is_directory = false →
        e.depth ≤ ({ max_depth := 0 } : FileTreeOptions).max_depth + 1) :=
  ⟨le_refl 0,
    (depth_limit_binds_directories_only literal_engine sample_tree { max_depth := 0 }
      (le_refl 0)).1⟩

theorem unlimited_scan_lists_every_node_witness :
    ({ } : FileTreeOptions).max_depth = -1 ∧
    ({ } : FileTreeOptions).exclude_patterns = [] ∧
    (scan_directory literal_engine sample_tree { }).length =
      (recursive_directory_iterator sample_tree.children).length :=
  ⟨rfl, rfl, (unlimited_scan_lists_every_node literal_engine sample_tree { } rfl rfl).2.2.1⟩

end FileTree
